import Mathlib

set_option maxHeartbeats 1000000
set_option linter.unusedVariables false

/-!
Verification model of the cargo-modules structural graph engine.

The repository's own sources provide the command layer (`generate.rs`) and an
early runner (`runner.rs`); the graph builder, path resolver and graph
shrinker live in modules that are referenced but not present, so those three
components are modelled from the specification and marked as such in their
doc comments.
-/

/-- Identifier text: a module / crate / item name, modelled as a character
list (mirrors the Rust `String` segments produced by `split("::")`). -/
abbrev Name := List Char

/-- Visibility marker attached to module and type nodes. -/
inductive Vis where
  | visPub
  | visRestricted
deriving DecidableEq

/-- Kind tag of a type node (struct / enum / trait / union equivalent). -/
inductive TypeKind where
  | strukt
  | enumKind
  | traitKind
  | unionKind
deriving DecidableEq

/-- Kind tag of a graph edge: `Owns` (structural), `Uses` (use/import
relation), `Extern` (reference crossing the program-unit boundary). -/
inductive EdgeKind where
  | owns
  | uses
  | externs
deriving DecidableEq

/-- One program entity: a module (qualified path, root flag, visibility,
test-only flag), a type (qualified path, kind, visibility), or an orphan
placeholder that carries only a display label. -/
inductive Node where
  | module (path : List Name) (isRoot : Bool) (vis : Vis) (isTest : Bool)
  | type (path : List Name) (kind : TypeKind) (vis : Vis)
  | orphan (label : Name)
deriving DecidableEq

/-- One directed, kind-tagged edge between node indices. -/
structure Edge where
  src : Nat
  dst : Nat
  kind : EdgeKind
deriving DecidableEq

/-- The graph: an arena of nodes addressed by list index, plus a list of
directed, kind-tagged edges between indices. -/
structure Graph where
  nodes : List Node
  edges : List Edge
deriving DecidableEq

/-! ## Graph Shrinker

`shrink_graph` is referenced from `generate.rs` as `util::shrink_graph` but
its defining module is not among the sources, so it is modelled from the
spec: breadth-first search from the start node over all edge kinds, treating
the graph as undirected; a node survives iff its minimum hop distance is at
most the maximum depth; an edge survives iff both endpoints survive. -/

/-- Neighbours of `v`: endpoints joined to `v` by an edge of any kind, in
either direction (the graph is treated as undirected for distances). -/
def nbrs (g : Graph) (v : Nat) : Finset Nat :=
  ((g.edges.filter (fun e => e.src == v)).map Edge.dst).toFinset ∪
    ((g.edges.filter (fun e => e.dst == v)).map Edge.src).toFinset

/-- One BFS expansion step: the frontier set together with all of its
neighbours. -/
def ballStep (g : Graph) (s : Finset Nat) : Finset Nat :=
  s ∪ s.biUnion (nbrs g)

/-- Iterated BFS expansion with the given fuel, stopping early once the set
of discovered nodes is stable.  After `n` steps the set holds exactly the
nodes within `n` hops of the seed set. -/
def ballFuel (g : Graph) : Finset Nat → Nat → Finset Nat
  | s, 0 => s
  | s, n + 1 => if ballStep g s = s then s else ballFuel g (ballStep g s) n

/-- Modelled from the spec: the survival test of the Graph Shrinker
(`util::shrink_graph`, module absent from the sources).  A node survives
iff BFS from the start node reaches it within `maxDepth` hops. -/
def survives (g : Graph) (start maxDepth v : Nat) : Bool :=
  v ∈ ballFuel g {start} maxDepth

/-- Result of shrinking: the surviving node indices of the input graph
together with the surviving edges. -/
structure SubGraph where
  keptNodes : List Nat
  keptEdges : List Edge
deriving DecidableEq

/-- Modelled from the spec: the Graph Shrinker (`util::shrink_graph`,
module absent from the sources).  Keeps exactly the nodes within `maxDepth`
undirected hops of `start`, plus every edge whose endpoints both survive. -/
def shrink_graph (g : Graph) (start maxDepth : Nat) : SubGraph :=
  let kept := (List.range g.nodes.length).filter (fun v => survives g start maxDepth v)
  { keptNodes := kept
    keptEdges := g.edges.filter (fun e => kept.contains e.src && kept.contains e.dst) }

/-- Undirected adjacency: some edge of any kind joins `u` and `v`. -/
def Adj (g : Graph) (u v : Nat) : Prop :=
  ∃ e, e ∈ g.edges ∧ ((e.src = u ∧ e.dst = v) ∨ (e.src = v ∧ e.dst = u))

/-- An undirected walk of the stated length between two node indices,
counting edges of every kind in either direction as one hop each. -/
inductive pathLen (g : Graph) : Nat → Nat → Nat → Prop
  | refl (v : Nat) : pathLen g 0 v v
  | cons {u w v n : Nat} : Adj g u w → pathLen g n w v → pathLen g (n + 1) u v

/-- Edge endpoints occurring in the graph's edge list. -/
def ends (g : Graph) : Finset Nat :=
  (g.edges.map Edge.src).toFinset ∪ (g.edges.map Edge.dst).toFinset

/-! ## Semantic facts

The builder consumes the results of semantic resolution as opaque facts
(spec section 6): a tree of modules, each with declared type items and
use targets that are either resolved to an in-unit entity path or flagged
unresolvable/foreign. -/

/-- A declared type item of a module, as reported by the fact provider. -/
structure ItemFacts where
  name : Name
  kind : TypeKind
  vis : Vis
  isTest : Bool
deriving DecidableEq

/-- One use/import target of a module, as reported by the fact provider:
either resolved to a known in-unit entity path, or unresolvable/foreign
with a display label and a program-unit-boundary flag. -/
inductive UseFact where
  | resolved (path : List Name)
  | unresolved (label : Name) (crossesBoundary : Bool)
deriving DecidableEq

/-- The semantic hierarchy of the root program unit: a tree of modules
(containment has no cycles, per the spec), each carrying its name,
visibility, test-only flag, declared type items and use targets. -/
inductive SemTree where
  | mk (name : Name) (vis : Vis) (isTest : Bool)
      (items : List ItemFacts) (uses : List UseFact) (kids : List SemTree)

def SemTree.name : SemTree → Name
  | .mk n _ _ _ _ _ => n

def SemTree.vis : SemTree → Vis
  | .mk _ v _ _ _ _ => v

def SemTree.isTest : SemTree → Bool
  | .mk _ _ b _ _ _ => b

def SemTree.items : SemTree → List ItemFacts
  | .mk _ _ _ i _ _ => i

def SemTree.uses : SemTree → List UseFact
  | .mk _ _ _ _ u _ => u

def SemTree.kids : SemTree → List SemTree
  | .mk _ _ _ _ _ k => k

/-- The configuration surface of the Graph Builder
(`graph::builder::Options` as instantiated by `Command::builder_options`
in `generate.rs`). -/
structure BuilderOptions where
  focus_on : Option Name
  max_depth : Option Nat
  with_types : Bool
  with_tests : Bool
  with_orphans : Bool
  with_uses : Bool
  with_externs : Bool
deriving DecidableEq

/-! ## Graph Builder

`GraphBuilder::build` is referenced from `generate.rs` but its defining
module (`graph::builder`) is not among the sources, so it is modelled from
the spec (section 4.1): traverse the hierarchy from the root; for every
visited module emit a `Module` node (deduplicated by qualified path) and an
`Owns` edge from its parent; for every declared type item (if types are
enabled and the item passes the test filter) emit a `Type` node and an
`Owns` edge; skip test-only modules and items when tests are excluded; then
for every use target of a visited module (if use edges are enabled),
resolve it — emitting a `Uses` edge to a known entity, or, for an
unresolvable target with orphans enabled, an `Orphan` node plus a `Uses` or
`Extern` edge depending on the boundary flag (extern-crossing edges also
require `with_externs`). -/

/-- Does this node match as the `Module` with the given qualified path? -/
def isModuleWithPath (p : List Name) : Node → Bool
  | .module q _ _ _ => decide (q = p)
  | _ => false

/-- Index of the first `Module` node with the given qualified path. -/
def findModuleIdx (nodes : List Node) (p : List Name) : Option Nat :=
  nodes.findIdx? (isModuleWithPath p)

/-- The qualified path of an entity node (`none` for orphans, which carry
only a display label). -/
def entityPath? : Node → Option (List Name)
  | .module q _ _ _ => some q
  | .type q _ _ => some q
  | .orphan _ => none

/-- Index of the first entity node (module or type) with the given path. -/
def findEntityIdx (nodes : List Node) (p : List Name) : Option Nat :=
  nodes.findIdx? (fun n => decide (entityPath? n = some p))

/-- Emit a `Module` node, deduplicated by qualified path: if a module with
this path already exists its index is reused, otherwise a fresh node is
appended. -/
def pushModule (g : Graph) (p : List Name) (isRoot : Bool) (vis : Vis) (isTest : Bool) :
    Graph × Nat :=
  match findModuleIdx g.nodes p with
  | some i => (g, i)
  | none => ({ g with nodes := g.nodes ++ [.module p isRoot vis isTest] }, g.nodes.length)

def addEdge (g : Graph) (s d : Nat) (k : EdgeKind) : Graph :=
  { g with edges := g.edges ++ [⟨s, d, k⟩] }

/-- The `Owns` edge from the parent module, absent at the root. -/
def addParentEdge (parentIdx : Option Nat) (g : Graph) (selfIdx : Nat) : Graph :=
  match parentIdx with
  | some pi => addEdge g pi selfIdx .owns
  | none => g

/-- Keep a declared type item? Requires `with_types`, and the test filter. -/
def keepItem (opts : BuilderOptions) (it : ItemFacts) : Bool :=
  opts.with_types && (opts.with_tests || !it.isTest)

/-- Emit a `Type` node plus the `Owns` edge from its owning module, when
the item passes the configuration filter. -/
def pushType (opts : BuilderOptions) (ownerIdx : Nat) (ownerPath : List Name)
    (g : Graph) (it : ItemFacts) : Graph :=
  if keepItem opts it then
    { nodes := g.nodes ++ [.type (ownerPath ++ [it.name]) it.kind it.vis]
      edges := g.edges ++ [⟨ownerIdx, g.nodes.length, .owns⟩] }
  else g

/-- Descend into a child module? Test-only modules are skipped when
test entities are excluded. -/
def visitChild (opts : BuilderOptions) (t : SemTree) : Bool :=
  opts.with_tests || !t.isTest

mutual

/-- Phase one of the build: emit this module's node, its `Owns` edge from
the parent, its type items, and recursively its children. -/
def buildMod (opts : BuilderOptions) (parentIdx : Option Nat) (pref : List Name)
    (t : SemTree) (g : Graph) : Graph :=
  match t with
  | .mk nm vis isT items _ kids =>
    let p := pref ++ [nm]
    let gi := pushModule g p parentIdx.isNone vis isT
    buildKids opts gi.2 p kids
      (items.foldl (pushType opts gi.2 p) (addParentEdge parentIdx gi.1 gi.2))

def buildKids (opts : BuilderOptions) (parentIdx : Nat) (pref : List Name)
    (ts : List SemTree) (g : Graph) : Graph :=
  match ts with
  | [] => g
  | c :: rest =>
    buildKids opts parentIdx pref rest
      (if visitChild opts c then buildMod opts (some parentIdx) pref c g else g)

end

/-- Emit an `Orphan` node plus the edge pointing at it. -/
def pushOrphan (g : Graph) (srcIdx : Nat) (label : Name) (k : EdgeKind) : Graph :=
  { nodes := g.nodes ++ [.orphan label]
    edges := g.edges ++ [⟨srcIdx, g.nodes.length, k⟩] }

/-- Process one use target of the module at `srcIdx`: a resolved target
yields a `Uses` edge to the matching entity (silently dropped when no
entity matches); an unresolvable target yields an `Orphan` node plus a
`Uses` or `Extern` edge subject to the orphan/extern configuration. -/
def addUse (opts : BuilderOptions) (srcIdx : Nat) (g : Graph) : UseFact → Graph
  | .resolved p =>
    match findEntityIdx g.nodes p with
    | some j => addEdge g srcIdx j .uses
    | none => g
  | .unresolved label crosses =>
    if crosses then
      if opts.with_orphans && opts.with_externs then pushOrphan g srcIdx label .externs
      else g
    else
      if opts.with_orphans then pushOrphan g srcIdx label .uses
      else g

/-- Process the use targets of one visited module, given the result of
looking its node up by path: skipped entirely unless use edges are
enabled. -/
def addUses (opts : BuilderOptions) (us : List UseFact) (g : Graph) :
    Option Nat → Graph
  | some i => if opts.with_uses then us.foldl (addUse opts i) g else g
  | none => g

mutual

/-- Phase two of the build: walk the same visited modules again and emit
the use-relation edges (plus orphan placeholders), now that every entity
node exists. -/
def usesMod (opts : BuilderOptions) (pref : List Name) (t : SemTree) (g : Graph) : Graph :=
  match t with
  | .mk nm _ _ _ us kids =>
    let p := pref ++ [nm]
    usesKids opts p kids (addUses opts us g (findModuleIdx g.nodes p))

def usesKids (opts : BuilderOptions) (pref : List Name) (ts : List SemTree) (g : Graph) :
    Graph :=
  match ts with
  | [] => g
  | c :: rest =>
    usesKids opts pref rest (if visitChild opts c then usesMod opts pref c g else g)

end

/-- Modelled from the spec: the Graph Builder (`graph::builder::Builder`,
module absent from the sources).  Builds the complete graph of the program
unit whose semantic hierarchy is `t`. -/
def build (opts : BuilderOptions) (t : SemTree) : Graph :=
  usesMod opts [] t (buildMod opts none [] t { nodes := [], edges := [] })

/-! ## Specification-side shadow lists used by the characterization
lemmas: the visited positions of a build and the node lists they emit. -/

mutual

/-- The positions (prefix of ancestor names, subtree) visited by a build
with the given options, in preorder; the root position is always visited,
test-only children are skipped when tests are excluded. -/
def visPos (opts : BuilderOptions) (pref : List Name) (t : SemTree) :
    List (List Name × SemTree) :=
  match t with
  | .mk nm _ _ _ _ kids => (pref, t) :: visKidsPos opts (pref ++ [nm]) kids

def visKidsPos (opts : BuilderOptions) (pref : List Name) :
    List SemTree → List (List Name × SemTree)
  | [] => []
  | c :: rest =>
    (if visitChild opts c then visPos opts pref c else []) ++ visKidsPos opts pref rest

end

/-- Qualified path of a visited position. -/
def pathOf (pos : List Name × SemTree) : List Name :=
  pos.1 ++ [pos.2.name]

/-- The `Module` node emitted for a visited position (the root position is
the one with the empty ancestor prefix). -/
def mkMod (pos : List Name × SemTree) : Node :=
  .module (pathOf pos) pos.1.isEmpty pos.2.vis pos.2.isTest

/-- The `Type` node emitted for a declared item of a visited position. -/
def mkTy (pos : List Name × SemTree) (it : ItemFacts) : Node :=
  .type (pathOf pos ++ [it.name]) it.kind it.vis

/-- The type nodes a build emits for one visited position. -/
def typeNodesOf (opts : BuilderOptions) (pos : List Name × SemTree) : List Node :=
  pos.2.items.filterMap (fun it => if keepItem opts it then some (mkTy pos it) else none)

/-- The phase-one node list of a build: for each visited position, its
module node followed by its kept type nodes. -/
def p1nodes (opts : BuilderOptions) (pref : List Name) (t : SemTree) : List Node :=
  (visPos opts pref t).flatMap (fun pos => mkMod pos :: typeNodesOf opts pos)

/-- The orphan node a use target gives rise to, if any. -/
def orphanFor (opts : BuilderOptions) : UseFact → Option Node
  | .resolved _ => none
  | .unresolved label crosses =>
    if crosses then
      if opts.with_orphans && opts.with_externs then some (.orphan label) else none
    else
      if opts.with_orphans then some (.orphan label) else none

/-- The phase-two orphan node list of a build. -/
def orphanNodesOf (opts : BuilderOptions) (pref : List Name) (t : SemTree) : List Node :=
  if opts.with_uses then
    (visPos opts pref t).flatMap (fun pos => pos.2.uses.filterMap (orphanFor opts))
  else []

/-- The orphan nodes phase two appends while processing one visited
position (empty when use edges are disabled). -/
def orphanBlock (opts : BuilderOptions) (pos : List Name × SemTree) : List Node :=
  if opts.with_uses then pos.2.uses.filterMap (orphanFor opts) else []

/-- Exact characterization of one phase-two pass over the visited
positions `V`, carried out on top of the phase-one node list `G1`: the
nodes grow by exactly the orphan blocks, the old edges survive, every new
edge is a use/orphan/extern edge of the documented shape anchored at a
visited module, and every documented shape is realized. -/
def UsesSpec (opts : BuilderOptions) (G1 : List Node)
    (V : List (List Name × SemTree)) (gf g : Graph) : Prop :=
  gf.nodes = g.nodes ++ V.flatMap (orphanBlock opts) ∧
  (∀ e ∈ g.edges, e ∈ gf.edges) ∧
  (∀ e ∈ gf.edges, e ∈ g.edges ∨
    (opts.with_uses = true ∧ ∃ pos ∈ V,
      gf.nodes[e.src]? = some (mkMod pos) ∧
      ((e.kind = .uses ∧ ∃ p b, UseFact.resolved p ∈ pos.2.uses ∧ b ∈ G1 ∧
        entityPath? b = some p ∧ gf.nodes[e.dst]? = some b) ∨
      (e.kind = .uses ∧ ∃ label, UseFact.unresolved label false ∈ pos.2.uses ∧
        opts.with_orphans = true ∧ gf.nodes[e.dst]? = some (Node.orphan label)) ∨
      (e.kind = .externs ∧ ∃ label, UseFact.unresolved label true ∈ pos.2.uses ∧
        opts.with_orphans = true ∧ opts.with_externs = true ∧
        gf.nodes[e.dst]? = some (Node.orphan label))))) ∧
  (∀ pos ∈ V, opts.with_uses = true →
    (∀ p j b, UseFact.resolved p ∈ pos.2.uses → findEntityIdx G1 p = some j →
      G1[j]? = some b →
      ∃ e ∈ gf.edges, e.kind = .uses ∧ gf.nodes[e.src]? = some (mkMod pos) ∧
        gf.nodes[e.dst]? = some b) ∧
    (∀ label, UseFact.unresolved label false ∈ pos.2.uses → opts.with_orphans = true →
      ∃ e ∈ gf.edges, e.kind = .uses ∧ gf.nodes[e.src]? = some (mkMod pos) ∧
        gf.nodes[e.dst]? = some (Node.orphan label)) ∧
    (∀ label, UseFact.unresolved label true ∈ pos.2.uses → opts.with_orphans = true →
      opts.with_externs = true →
      ∃ e ∈ gf.edges, e.kind = .externs ∧ gf.nodes[e.src]? = some (mkMod pos) ∧
        gf.nodes[e.dst]? = some (Node.orphan label)))

/-- Qualified paths of the `Module` nodes of a node list. -/
def modulePath? : Node → Option (List Name)
  | .module p _ _ _ => some p
  | _ => none

def modulePaths (l : List Node) : List (List Name) :=
  l.filterMap modulePath?

def entityPaths (l : List Node) : List (List Name) :=
  l.filterMap entityPath?

/-- Does this node carry the root flag? -/
def isRootNode : Node → Bool
  | .module _ r _ _ => r
  | _ => false

/-- The configuration with every inclusion flag enabled. -/
def fullOpts : BuilderOptions :=
  ⟨none, none, true, true, true, true, true⟩

/-- All entity paths the fact tree can give rise to (over the unfiltered
traversal): for each position its module path and its items' type paths. -/
def allEntityPaths (t : SemTree) : List (List Name) :=
  (visPos fullOpts [] t).flatMap
    (fun pos => pathOf pos :: pos.2.items.map (fun it => pathOf pos ++ [it.name]))

/-- Well-formed fact tree: distinct positions and items have pairwise
distinct qualified paths (guaranteed by the semantic fact provider, where
sibling modules and items are uniquely named within the unit). -/
def WF (t : SemTree) : Prop :=
  (allEntityPaths t).Nodup

instance decWF (t : SemTree) : Decidable (WF t) :=
  inferInstanceAs (Decidable ((allEntityPaths t).Nodup))

/-- Pointwise implication on the five inclusion flags of the builder
configuration. -/
def optsLE (o1 o2 : BuilderOptions) : Prop :=
  (o1.with_types = true → o2.with_types = true) ∧
    (o1.with_tests = true → o2.with_tests = true) ∧
    (o1.with_orphans = true → o2.with_orphans = true) ∧
    (o1.with_uses = true → o2.with_uses = true) ∧
    (o1.with_externs = true → o2.with_externs = true)

/-- The payloads at an edge's endpoints in a node arena. -/
def SemEdgeAt (nodes : List Node) (e : Edge) (a b : Node) : Prop :=
  nodes[e.src]? = some a ∧ nodes[e.dst]? = some b

/-! ## Path Resolver

`util::idx_of_node_with_path` is referenced from `generate.rs` but its
defining module is not among the sources, so it is modelled from the spec
(section 4.2): return the index of the unique module whose qualified path
exactly matches; fail with `PathNotFound` on zero matches and with
`AmbiguousPath` on several. -/

/-- Errors of the focus-path resolution, each naming the offending path. -/
inductive GError where
  | pathNotFound (p : List Name)
  | ambiguousPath (p : List Name)
deriving DecidableEq

/-- Modelled from the spec: the Path Resolver
(`util::idx_of_node_with_path`, module absent from the sources). -/
def idx_of_node_with_path (g : Graph) (p : List Name) : Except GError Nat :=
  match (List.range g.nodes.length).filter
      (fun i => ((g.nodes[i]?).map (isModuleWithPath p)).getD false) with
  | [] => .error (.pathNotFound p)
  | [i] => .ok i
  | _ :: _ :: _ => .error (.ambiguousPath p)

/-! ## Command layer (from `generate.rs`). -/

structure GeneralOptions where
  verbose : Bool
deriving DecidableEq

structure ProjectOptions where
  manifest_dir : Name
deriving DecidableEq

/-- The shared graph options (`options::graph::Options`). -/
structure SharedGraphOptions where
  focus_on : Option Name
  max_depth : Option Nat
  with_types : Bool
  with_tests : Bool
  with_orphans : Bool
deriving DecidableEq

/-- Options of the `tree` subcommand (`tree::Options`). -/
structure TreeCmdOptions where
  general : GeneralOptions
  project : ProjectOptions
  graph : SharedGraphOptions
deriving DecidableEq

/-- Options of the `graph` subcommand (`graph::Options`); only this
subcommand exposes `with_uses` and `with_externs`. -/
structure GraphCmdOptions where
  general : GeneralOptions
  project : ProjectOptions
  graph : SharedGraphOptions
  with_uses : Bool
  with_externs : Bool
deriving DecidableEq

/-- The `generate` command: print the crate as a tree or as a graph. -/
inductive Command where
  | tree (o : TreeCmdOptions)
  | graphCmd (o : GraphCmdOptions)

/-- `Command::graph_options` from `generate.rs`. -/
def Command.graph_options : Command → SharedGraphOptions
  | .tree o => o.graph
  | .graphCmd o => o.graph

/-- `Command::builder_options` from `generate.rs`: the tree subcommand
hard-codes `with_uses = false` and `with_externs = false`; the graph
subcommand passes the user's choices through. -/
def Command.builder_options : Command → BuilderOptions
  | .tree o =>
    { focus_on := o.graph.focus_on
      max_depth := o.graph.max_depth
      with_types := o.graph.with_types
      with_tests := o.graph.with_tests
      with_orphans := o.graph.with_orphans
      with_uses := false
      with_externs := false }
  | .graphCmd o =>
    { focus_on := o.graph.focus_on
      max_depth := o.graph.max_depth
      with_types := o.graph.with_types
      with_tests := o.graph.with_tests
      with_orphans := o.graph.with_orphans
      with_uses := o.with_uses
      with_externs := o.with_externs }

/-- Splitting on the separator `::`, as `str::split("::")` does in
`Command::run`: each non-overlapping occurrence, scanned left to right,
ends the current segment. -/
def splitPath (acc : Name) : Name → List Name
  | [] => [acc.reverse]
  | [c] => [(c :: acc).reverse]
  | c :: c2 :: rest =>
    if c == ':' && c2 == ':' then acc.reverse :: splitPath [] rest
    else splitPath (c :: acc) (c2 :: rest)

/-- Whether the separator `::` occurs anywhere in the text. -/
def hasSep : Name → Bool
  | [] => false
  | [_] => false
  | c :: c2 :: rest => (c == ':' && c2 == ':') || hasSep (c2 :: rest)

/-- The focus path of `Command::run` (`generate.rs` lines 66-69): the
`focus_on` option, defaulting to the crate's own name, split on `::`. -/
def focusPathOf (go : SharedGraphOptions) (crateName : Name) : List Name :=
  splitPath [] (go.focus_on.getD crateName)

/-- `usize::MAX` on a 64-bit host. -/
def usizeMAX : Nat := 2 ^ 64 - 1

/-- The maximum depth handed to the shrinker by `Command::run`
(`generate.rs` line 82): the `max_depth` option, defaulting to
`usize::MAX`. -/
def resolvedMaxDepth (go : SharedGraphOptions) : Nat :=
  go.max_depth.getD usizeMAX

/-- The resolve-then-shrink tail of `Command::run` (`generate.rs` lines
71-86) on an already-built graph: locate the start node from the focus
path, then shrink to the resolved maximum depth.  A resolution error
aborts the run before any shrinking (the `?` operator), so the error is
returned unchanged. -/
def runWithFocus (g : Graph) (focusPath : List Name) (max_depth : Option Nat) :
    Except GError (SubGraph × Nat) :=
  match idx_of_node_with_path g focusPath with
  | .error e => .error e
  | .ok s => .ok (shrink_graph g s (max_depth.getD usizeMAX), s)

/-- The per-crate body of `Command::run` (`generate.rs` lines 49-99),
minus printing: build the graph, compute the focus path, resolve the start
node, shrink. -/
def commandRun (cmd : Command) (crateName : Name) (t : SemTree) :
    Except GError (SubGraph × Nat) :=
  runWithFocus (build cmd.builder_options t)
    (focusPathOf cmd.graph_options crateName) cmd.graph_options.max_depth

/-! ## Runner (from `runner.rs`, an earlier iteration of the tool with its
own module-graph node type `graph::modules::NodeKind`; that module is
absent from the sources, so the node type is modelled from its use sites
in `Runner::run`). -/

structure ModuleNode where
  is_root : Bool
deriving DecidableEq

inductive RNodeKind where
  | moduleKind (m : ModuleNode)
  | orphanKind
deriving DecidableEq

structure RNode where
  kind : RNodeKind
deriving DecidableEq

structure ModuleGraph where
  nodes : List RNode
deriving DecidableEq

def ModuleGraph.node_indices (g : ModuleGraph) : List Nat :=
  List.range g.nodes.length

/-- The match of `Runner::run` (`runner.rs` lines 32-36): a module node
reports its `is_root` flag; an orphan node is never the root. -/
def rNodeIsRoot (n : RNode) : Bool :=
  match n.kind with
  | .moduleKind m => m.is_root
  | .orphanKind => false

/-- The root-node lookup of `Runner::run` (`runner.rs` lines 29-37). -/
def root_node_idx (g : ModuleGraph) : Option Nat :=
  g.node_indices.find? (fun i => ((g.nodes[i]?).map rNodeIsRoot).getD false)

/-- `Runner::run` (`runner.rs` lines 17-46) after a successful build and
module-graph mapping: look up the root node index, print with it, return
`Ok`.  The model returns the index handed to `print`. -/
def Runner.run (g : ModuleGraph) : Except GError (Option Nat) :=
  .ok (root_node_idx g)

theorem pathLen_zero_iff {g : Graph} {u v : Nat} : pathLen g 0 u v ↔ u = v := by
  constructor
  · intro h
    cases h
    rfl
  · rintro rfl
    exact pathLen.refl u

theorem pathLen_succ_iff {g : Graph} {n u v : Nat} :
    pathLen g (n + 1) u v ↔ ∃ w, Adj g u w ∧ pathLen g n w v := by
  constructor
  · intro h
    cases h with
    | cons ha hp => exact ⟨_, ha, hp⟩
  · rintro ⟨w, ha, hp⟩
    exact pathLen.cons ha hp

theorem mem_nbrs {g : Graph} {v w : Nat} : w ∈ nbrs g v ↔ Adj g v w := by
  simp only [nbrs, Finset.mem_union, List.mem_toFinset, List.mem_map, List.mem_filter,
    beq_iff_eq, Adj]
  constructor
  · rintro (⟨e, ⟨he, hs⟩, rfl⟩ | ⟨e, ⟨he, hd⟩, rfl⟩)
    · exact ⟨e, he, Or.inl ⟨hs, rfl⟩⟩
    · exact ⟨e, he, Or.inr ⟨rfl, hd⟩⟩
  · rintro ⟨e, he, ⟨hs, hd⟩ | ⟨hs, hd⟩⟩
    · exact Or.inl ⟨e, ⟨he, hs⟩, hd⟩
    · exact Or.inr ⟨e, ⟨he, hd⟩, hs⟩

theorem mem_ballStep {g : Graph} {s : Finset Nat} {v : Nat} :
    v ∈ ballStep g s ↔ v ∈ s ∨ ∃ u ∈ s, Adj g u v := by
  simp only [ballStep, Finset.mem_union, Finset.mem_biUnion, mem_nbrs]

theorem subset_ballStep (g : Graph) (s : Finset Nat) : s ⊆ ballStep g s := by
  intro v hv
  exact mem_ballStep.mpr (Or.inl hv)

/-- A fixed point of the expansion step is closed under walks. -/
theorem fix_closed {g : Graph} {s : Finset Nat} (hfix : ballStep g s = s)
    {k u v : Nat} (hp : pathLen g k u v) (hu : u ∈ s) : v ∈ s := by
  induction hp with
  | refl => exact hu
  | cons ha _ ih =>
    exact ih (by rw [← hfix]; exact mem_ballStep.mpr (Or.inr ⟨_, hu, ha⟩))

/-- BFS characterization: after `n` steps of fuel, the discovered set holds
exactly the targets of walks of length at most `n` from the seed set. -/
theorem mem_ballFuel {g : Graph} :
    ∀ (n : Nat) (s : Finset Nat) (v : Nat),
      v ∈ ballFuel g s n ↔ ∃ u ∈ s, ∃ k ≤ n, pathLen g k u v := by
  intro n
  induction n with
  | zero =>
    intro s v
    simp only [ballFuel]
    constructor
    · intro hv
      exact ⟨v, hv, 0, Nat.le_refl 0, pathLen.refl v⟩
    · rintro ⟨u, hu, k, hk, hp⟩
      interval_cases k
      cases hp
      exact hu
  | succ n ih =>
    intro s v
    simp only [ballFuel]
    by_cases hfix : ballStep g s = s
    · simp only [hfix, if_true]
      constructor
      · intro hv
        exact ⟨v, hv, 0, Nat.zero_le _, pathLen.refl v⟩
      · rintro ⟨u, hu, k, _, hp⟩
        exact fix_closed hfix hp hu
    · simp only [hfix, if_false]
      rw [ih]
      constructor
      · rintro ⟨u, hu, k, hk, hp⟩
        rcases mem_ballStep.mp hu with hus | ⟨w, hw, haw⟩
        · exact ⟨u, hus, k, Nat.le_succ_of_le hk, hp⟩
        · exact ⟨w, hw, k + 1, Nat.succ_le_succ hk, pathLen.cons haw hp⟩
      · rintro ⟨u, hu, k, hk, hp⟩
        match k, hp with
        | 0, hp =>
          cases pathLen_zero_iff.mp hp
          exact ⟨_, subset_ballStep g s hu, 0, Nat.zero_le _, pathLen.refl _⟩
        | m + 1, hp =>
          obtain ⟨w, haw, hp'⟩ := pathLen_succ_iff.mp hp
          exact ⟨w, mem_ballStep.mpr (Or.inr ⟨u, hu, haw⟩), m,
            Nat.le_of_succ_le_succ hk, hp'⟩

theorem survives_iff {g : Graph} {start d v : Nat} :
    survives g start d v = true ↔ ∃ k ≤ d, pathLen g k start v := by
  simp only [survives, decide_eq_true_eq, mem_ballFuel, Finset.mem_singleton]
  constructor
  · rintro ⟨u, rfl, hk⟩
    exact hk
  · intro hk
    exact ⟨start, rfl, hk⟩

theorem survives_eq_true_iff {g : Graph} {start d v : Nat} :
    survives g start d v = true ↔ v ∈ ballFuel g {start} d := by
  simp [survives]

theorem mem_keptNodes {g : Graph} {start d v : Nat} :
    v ∈ (shrink_graph g start d).keptNodes ↔
      v < g.nodes.length ∧ ∃ k ≤ d, pathLen g k start v := by
  simp only [shrink_graph, List.mem_filter, List.mem_range, survives_iff]

theorem mem_keptEdges {g : Graph} {start d : Nat} {e : Edge} :
    e ∈ (shrink_graph g start d).keptEdges ↔
      e ∈ g.edges ∧ e.src ∈ (shrink_graph g start d).keptNodes ∧
        e.dst ∈ (shrink_graph g start d).keptNodes := by
  simp only [shrink_graph, List.mem_filter, Bool.and_eq_true, List.elem_iff, List.mem_range,
    and_assoc]

/-- C1: for every graph, start node index and maximum depth, the Graph
Shrinker keeps exactly the graph's nodes whose minimum undirected hop
distance from the start (over edges of every kind, in either direction) is
at most the maximum depth — equivalently, the targets of walks of length at
most the depth bound, so unreachable nodes are dropped regardless of the
bound — and keeps exactly the input edges both of whose endpoints
survive. -/
theorem shrink_graph_exact (g : Graph) (start d : Nat) :
    (∀ v, v ∈ (shrink_graph g start d).keptNodes ↔
      v < g.nodes.length ∧ ∃ k ≤ d, pathLen g k start v) ∧
    (∀ e, e ∈ (shrink_graph g start d).keptEdges ↔
      e ∈ g.edges ∧ e.src ∈ (shrink_graph g start d).keptNodes ∧
        e.dst ∈ (shrink_graph g start d).keptNodes) :=
  ⟨fun _ => mem_keptNodes, fun _ => mem_keptEdges⟩

/-- C5: for a fixed graph and start node, every node surviving the
shrinker at depth `d1` also survives at any depth `d2 ≥ d1`. -/
theorem shrink_graph_monotone (g : Graph) (start : Nat) (d1 d2 : Nat) (hd : d1 ≤ d2) :
    ∀ v, v ∈ (shrink_graph g start d1).keptNodes →
      v ∈ (shrink_graph g start d2).keptNodes := by
  intro v hv
  rcases mem_keptNodes.mp hv with ⟨hlt, k, hk, hp⟩
  exact mem_keptNodes.mpr ⟨hlt, k, Nat.le_trans hk hd, hp⟩

theorem shrink_graph_monotone_witness :
    (1 : Nat) ≤ 2 ∧
      0 ∈ (shrink_graph ⟨[Node.orphan ['a']], []⟩ 0 2).keptNodes :=
  ⟨by decide, shrink_graph_monotone ⟨[Node.orphan ['a']], []⟩ 0 1 2 (by decide) 0 (by decide)⟩

theorem adj_mem_ends {g : Graph} {u v : Nat} (h : Adj g u v) : v ∈ ends g := by
  rcases h with ⟨e, he, ⟨hs, hd⟩ | ⟨hs, hd⟩⟩
  · exact Finset.mem_union_right _ (by
      simp only [List.mem_toFinset, List.mem_map]
      exact ⟨e, he, hd⟩)
  · exact Finset.mem_union_left _ (by
      simp only [List.mem_toFinset, List.mem_map]
      exact ⟨e, he, hs⟩)

theorem ballStep_subset_of {g : Graph} {s U : Finset Nat} (hs : s ⊆ U)
    (hE : ends g ⊆ U) : ballStep g s ⊆ U := by
  intro v hv
  rcases mem_ballStep.mp hv with h | ⟨u, _, ha⟩
  · exact hs h
  · exact hE (adj_mem_ends ha)

theorem ballFuel_subset_of {g : Graph} {U : Finset Nat} (hE : ends g ⊆ U) :
    ∀ (n : Nat) (s : Finset Nat), s ⊆ U → ballFuel g s n ⊆ U := by
  intro n
  induction n with
  | zero => intro s hs; simpa [ballFuel] using hs
  | succ n ih =>
    intro s hs
    simp only [ballFuel]
    by_cases hfix : ballStep g s = s
    · simpa [hfix] using hs
    · simpa [hfix] using ih (ballStep g s) (ballStep_subset_of hs hE)

theorem seed_subset_ballFuel (g : Graph) (s : Finset Nat) (n : Nat) :
    s ⊆ ballFuel g s n := by
  intro v hv
  exact (mem_ballFuel n s v).mpr ⟨v, hv, 0, Nat.zero_le _, pathLen.refl v⟩

theorem ballFuel_fix_or_card (g : Graph) :
    ∀ (n : Nat) (s : Finset Nat),
      ballStep g (ballFuel g s n) = ballFuel g s n ∨
        n + s.card ≤ (ballFuel g s n).card := by
  intro n
  induction n with
  | zero => intro s; right; simp [ballFuel]
  | succ n ih =>
    intro s
    simp only [ballFuel]
    by_cases hfix : ballStep g s = s
    · left
      simp [hfix]
    · rcases ih (ballStep g s) with h | h
      · left
        simp [hfix, h]
      · right
        have hlt : s.card < (ballStep g s).card :=
          Finset.card_lt_card (Finset.ssubset_iff_subset_ne.mpr
            ⟨subset_ballStep g s, fun hc => hfix hc.symm⟩)
      -- the recursive call keeps at least the enlarged frontier's cardinality
        simp only [hfix, if_false]
        omega

theorem reachable_mem_ballFuel {g : Graph} {start v k n : Nat}
    (hp : pathLen g k start v) (hn : (insert start (ends g)).card ≤ n) :
    v ∈ ballFuel g {start} n := by
  have hsU : ({start} : Finset Nat) ⊆ insert start (ends g) := by
    simp
  rcases ballFuel_fix_or_card g n {start} with hfix | hcard
  · exact fix_closed hfix hp
      (seed_subset_ballFuel g {start} n (Finset.mem_singleton_self start))
  · have hle : (ballFuel g {start} n).card ≤ (insert start (ends g)).card :=
      Finset.card_le_card
        (ballFuel_subset_of (Finset.subset_insert _ _) n {start} hsU)
    simp only [Finset.card_singleton] at hcard
    omega

theorem card_insert_ends_le (g : Graph) (start : Nat) :
    (insert start (ends g)).card ≤ 1 + 2 * g.edges.length := by
  have h1 : (insert start (ends g)).card ≤ (ends g).card + 1 :=
    Finset.card_insert_le _ _
  have h2 : (ends g).card ≤
      (g.edges.map Edge.src).toFinset.card + (g.edges.map Edge.dst).toFinset.card :=
    Finset.card_union_le _ _
  have h3 : (g.edges.map Edge.src).toFinset.card ≤ g.edges.length := by
    calc (g.edges.map Edge.src).toFinset.card ≤ (g.edges.map Edge.src).length :=
          List.toFinset_card_le _
      _ = g.edges.length := List.length_map _ _
  have h4 : (g.edges.map Edge.dst).toFinset.card ≤ g.edges.length := by
    calc (g.edges.map Edge.dst).toFinset.card ≤ (g.edges.map Edge.dst).length :=
          List.toFinset_card_le _
      _ = g.edges.length := List.length_map _ _
  omega

/-- C7: when the `max_depth` option is absent, `Command::run` hands
`usize::MAX` to the shrinker, and every node of the graph reachable from
the start node survives — the whole connected component is kept.  The side
condition bounds the edge count by the 64-bit address space, which any
graph held in memory satisfies. -/
theorem absent_max_depth_keeps_component (go : SharedGraphOptions) (g : Graph)
    (start v : Nat) (habsent : go.max_depth = none)
    (hsize : 2 * g.edges.length < 2 ^ 64) (hnode : v < g.nodes.length)
    (hreach : ∃ k, pathLen g k start v) :
    v ∈ (shrink_graph g start (resolvedMaxDepth go)).keptNodes := by
  rcases hreach with ⟨k, hp⟩
  have hdepth : resolvedMaxDepth go = usizeMAX := by
    simp [resolvedMaxDepth, habsent]
  rw [hdepth]
  have hcard : (insert start (ends g)).card ≤ usizeMAX := by
    have := card_insert_ends_le g start
    simp only [usizeMAX]
    omega
  simp only [shrink_graph, List.mem_filter, List.mem_range]
  exact ⟨hnode, survives_eq_true_iff.mpr (reachable_mem_ballFuel hp hcard)⟩

theorem absent_max_depth_keeps_component_witness :
    (⟨none, none, true, true, true⟩ : SharedGraphOptions).max_depth = none ∧
      2 * (⟨[Node.orphan ['a'], Node.orphan ['b']],
        [⟨0, 1, EdgeKind.uses⟩]⟩ : Graph).edges.length < 2 ^ 64 ∧
      1 < 2 ∧
      1 ∈ (shrink_graph ⟨[Node.orphan ['a'], Node.orphan ['b']],
        [⟨0, 1, EdgeKind.uses⟩]⟩ 0
          (resolvedMaxDepth ⟨none, none, true, true, true⟩)).keptNodes :=
  ⟨rfl, by decide, by decide,
    absent_max_depth_keeps_component ⟨none, none, true, true, true⟩
      ⟨[Node.orphan ['a'], Node.orphan ['b']], [⟨0, 1, EdgeKind.uses⟩]⟩ 0 1 rfl
      (by decide) (by decide)
      ⟨1, pathLen.cons ⟨⟨0, 1, EdgeKind.uses⟩, by decide, Or.inl ⟨rfl, rfl⟩⟩
        (pathLen.refl 1)⟩⟩

theorem findIdx?_some_spec {α : Type} {p : α → Bool} :
    ∀ {l : List α} {i : Nat}, l.findIdx? p = some i → ∃ x, l[i]? = some x ∧ p x = true := by
  intro l
  induction l with
  | nil =>
    intro i h
    simp [List.findIdx?] at h
  | cons a t ih =>
    intro i h
    rw [List.findIdx?_cons] at h
    by_cases hp : p a
    · simp [hp] at h
      subst h
      exact ⟨a, by simp, hp⟩
    · simp [hp] at h
      rcases h with ⟨j, hj, rfl⟩
      rcases ih hj with ⟨x, hx, hpx⟩
      exact ⟨x, by simpa using hx, hpx⟩

theorem filterMap_nodup_getElem_unique {α β : Type} (f : α → Option β) :
    ∀ {l : List α} {i j : Nat} {x y : α} {q : β},
      (l.filterMap f).Nodup → l[i]? = some x → l[j]? = some y →
      f x = some q → f y = some q → i = j := by
  intro l
  induction l with
  | nil =>
    intro i j x y q _ hi _ _ _
    simp at hi
  | cons a t ih =>
    intro i j x y q hnd hi hj hfx hfy
    have htail : (t.filterMap f).Nodup := by
      rcases hfa : f a with _ | b
      · simpa [List.filterMap_cons, hfa] using hnd
      · exact (List.nodup_cons.mp (by simpa [List.filterMap_cons, hfa] using hnd)).2
    match i, j with
    | 0, 0 => rfl
    | 0, j + 1 =>
      exfalso
      simp only [List.getElem?_cons_zero, Option.some.injEq] at hi
      subst hi
      simp only [List.getElem?_cons_succ] at hj
      have hyt : y ∈ t := List.mem_iff_getElem?.mpr ⟨j, hj⟩
      have hq : q ∈ t.filterMap f := List.mem_filterMap.mpr ⟨y, hyt, hfy⟩
      have : ¬q ∈ t.filterMap f :=
        (List.nodup_cons.mp (by simpa [List.filterMap_cons, hfx] using hnd)).1
      exact this hq
    | i + 1, 0 =>
      exfalso
      simp only [List.getElem?_cons_zero, Option.some.injEq] at hj
      subst hj
      simp only [List.getElem?_cons_succ] at hi
      have hxt : x ∈ t := List.mem_iff_getElem?.mpr ⟨i, hi⟩
      have hq : q ∈ t.filterMap f := List.mem_filterMap.mpr ⟨x, hxt, hfx⟩
      have : ¬q ∈ t.filterMap f :=
        (List.nodup_cons.mp (by simpa [List.filterMap_cons, hfy] using hnd)).1
      exact this hq
    | i + 1, j + 1 =>
      simp only [List.getElem?_cons_succ] at hi hj
      exact congrArg Nat.succ (ih htail hi hj hfx hfy)

theorem isModuleWithPath_iff {p : List Name} {n : Node} :
    isModuleWithPath p n = true ↔ modulePath? n = some p := by
  cases n with
  | module q r v b => simp [isModuleWithPath, modulePath?]
  | type q k v => simp [isModuleWithPath, modulePath?]
  | orphan l => simp [isModuleWithPath, modulePath?]

theorem nodup_mem_iff_singleton {l : List Nat} {i : Nat} (hnd : l.Nodup)
    (hmem : ∀ x, x ∈ l ↔ x = i) : l = [i] := by
  match l with
  | [] => exact absurd ((hmem i).mpr rfl) (List.not_mem_nil i)
  | [a] =>
    have : a = i := (hmem a).mp (List.mem_singleton_self a)
    rw [this]
  | a :: b :: t =>
    exfalso
    have ha : a = i := (hmem a).mp (by simp)
    have hb : b = i := (hmem b).mp (by simp)
    have : a ∉ b :: t := (List.nodup_cons.mp hnd).1
    exact this (by simp [ha, hb])

theorem filter_range_eq_singleton {p : Nat → Bool} {N i : Nat} (hi : i < N)
    (hp : p i = true) (huniq : ∀ j, p j = true → j = i) :
    (List.range N).filter p = [i] := by
  apply nodup_mem_iff_singleton ((List.nodup_range N).filter p)
  intro x
  simp only [List.mem_filter, List.mem_range]
  constructor
  · rintro ⟨_, hx⟩
    exact huniq x hx
  · rintro rfl
    exact ⟨hi, hp⟩

theorem idx_ok_of_unique {g : Graph} {p : List Name} {i : Nat} {n : Node}
    (hi : g.nodes[i]? = some n) (hn : isModuleWithPath p n = true)
    (hnd : (modulePaths g.nodes).Nodup) :
    idx_of_node_with_path g p = .ok i := by
  have hiN : i < g.nodes.length := by
    rcases List.getElem?_eq_some.mp hi with ⟨h, _⟩
    exact h
  have hpred : (fun j => ((g.nodes[j]?).map (isModuleWithPath p)).getD false) i = true := by
    simp [hi, hn]
  have huniq : ∀ j, (fun j => ((g.nodes[j]?).map (isModuleWithPath p)).getD false) j = true →
      j = i := by
    intro j hj
    rcases h : g.nodes[j]? with _ | m
    · simp [h] at hj
    · simp only [h, Option.map_some, Option.getD_some] at hj
      exact filterMap_nodup_getElem_unique modulePath? hnd h hi
        (isModuleWithPath_iff.mp hj) (isModuleWithPath_iff.mp hn)
  rw [idx_of_node_with_path, filter_range_eq_singleton hiN hpred huniq]

/-- C8: a focus path matched by no module of the graph makes the run fail
with `PathNotFound` carrying that very path; the error propagates out of
`Command::run` before the shrinking step, so no shrinking (and hence no
rendering) happens for the invocation. -/
theorem unmatched_focus_path_fails (g : Graph) (p : List Name) (d : Option Nat)
    (hne : p ≠ [])
    (hnomatch : ∀ n ∈ g.nodes, isModuleWithPath p n = false) :
    runWithFocus g p d = Except.error (GError.pathNotFound p) := by
  have hfilter : (List.range g.nodes.length).filter
      (fun i => ((g.nodes[i]?).map (isModuleWithPath p)).getD false) = [] := by
    rw [List.filter_eq_nil_iff]
    intro j hj
    rcases h : g.nodes[j]? with _ | n
    · simp [h]
    · simp [h, hnomatch n (List.mem_iff_getElem?.mpr ⟨j, h⟩)]
  simp [runWithFocus, idx_of_node_with_path, hfilter]

theorem unmatched_focus_path_fails_witness :
    ([['a'], ['n']] : List Name) ≠ [] ∧
      runWithFocus ⟨[Node.module [['a']] true Vis.visPub false], []⟩ [['a'], ['n']] none =
        Except.error (GError.pathNotFound [['a'], ['n']]) :=
  ⟨by decide,
    unmatched_focus_path_fails ⟨[Node.module [['a']] true Vis.visPub false], []⟩
      [['a'], ['n']] none (by decide) (by decide)⟩

theorem SemTree.strongInd (P : SemTree → Prop)
    (h : ∀ nm vis isT items us kids, (∀ c ∈ kids, P c) → P (.mk nm vis isT items us kids)) :
    ∀ t, P t := by
  intro t
  induction t using SemTree.rec (motive_2 := fun l => ∀ c ∈ l, P c) with
  | mk nm vis isT items us kids ih => exact h nm vis isT items us kids ih
  | nil =>
    rename_i c hc
    cases hc
  | cons hd tl ihh iht =>
    rename_i c hc
    cases hc with
    | head => exact ihh
    | tail _ hmem => exact iht c hmem

theorem modulePaths_append (l l2 : List Node) :
    modulePaths (l ++ l2) = modulePaths l ++ modulePaths l2 :=
  List.filterMap_append l l2 modulePath?

theorem modulePaths_eq_nil {l : List Node} (h : ∀ n ∈ l, modulePath? n = none) :
    modulePaths l = [] := by
  rw [modulePaths, List.filterMap_eq_nil_iff]
  exact h

theorem pushModule_spec (g : Graph) (p : List Name) (r : Bool) (v : Vis) (b : Bool) :
    (pushModule g p r v b).1.edges = g.edges ∧
    (∃ l, (pushModule g p r v b).1.nodes = g.nodes ++ l ∧
      ∀ n ∈ l, n = Node.module p r v b) ∧
    ((modulePaths g.nodes).Nodup → (modulePaths (pushModule g p r v b).1.nodes).Nodup) := by
  simp only [pushModule]
  rcases h : findModuleIdx g.nodes p with _ | i
  · refine ⟨rfl, ⟨[Node.module p r v b], rfl, by simp⟩, ?_⟩
    intro hnd
    have hfresh : p ∉ modulePaths g.nodes := by
      intro hmem
      rcases List.mem_filterMap.mp hmem with ⟨n, hn, hpn⟩
      have hfalse := List.findIdx?_eq_none_iff.mp h n hn
      rw [isModuleWithPath_iff.mpr hpn] at hfalse
      cases hfalse
    have : modulePaths (g.nodes ++ [Node.module p r v b]) =
        modulePaths g.nodes ++ [p] := by
      rw [modulePaths_append]
      simp [modulePaths, modulePath?]
    rw [this]
    simp only [List.nodup_append, List.nodup_cons, List.not_mem_nil, not_false_iff,
      List.nodup_nil, and_true, true_and]
    refine ⟨hnd, ?_⟩
    intro q hq hq1
    rw [List.mem_singleton] at hq1
    subst hq1
    exact hfresh hq
  · exact ⟨rfl, ⟨[], by simp, by simp⟩, fun hnd => hnd⟩

theorem foldl_pushType_spec (opts : BuilderOptions) (idx : Nat) (p : List Name) :
    ∀ (items : List ItemFacts) (g : Graph),
      ∃ l, (items.foldl (pushType opts idx p) g).nodes = g.nodes ++ l ∧
        ∀ n ∈ l, ∃ q k v, n = Node.type q k v := by
  intro items
  induction items with
  | nil => exact fun g => ⟨[], by simp, by simp⟩
  | cons it rest ih =>
    intro g
    rw [List.foldl_cons]
    rcases ih (pushType opts idx p g it) with ⟨l, hl, hP⟩
    by_cases hk : keepItem opts it = true
    · refine ⟨Node.type (p ++ [it.name]) it.kind it.vis :: l, ?_, ?_⟩
      · rw [hl]
        simp [pushType, hk]
      · intro n hn
        rcases List.mem_cons.mp hn with rfl | hn
        · exact ⟨_, _, _, rfl⟩
        · exact hP n hn
    · refine ⟨l, ?_, hP⟩
      rw [hl]
      simp [pushType, hk]

theorem foldl_addUse_spec (opts : BuilderOptions) (idx : Nat) :
    ∀ (us : List UseFact) (g : Graph),
      ∃ l, (us.foldl (addUse opts idx) g).nodes = g.nodes ++ l ∧
        ∀ n ∈ l, ∃ lb, n = Node.orphan lb := by
  intro us
  induction us with
  | nil => exact fun g => ⟨[], by simp, by simp⟩
  | cons u rest ih =>
    intro g
    rw [List.foldl_cons]
    rcases ih (addUse opts idx g u) with ⟨l, hl, hP⟩
    have hstep : ∃ l0, (addUse opts idx g u).nodes = g.nodes ++ l0 ∧
        ∀ n ∈ l0, ∃ lb, n = Node.orphan lb := by
      rcases u with q | ⟨lb, crosses⟩
      · simp only [addUse]
        rcases h : findEntityIdx g.nodes q with _ | j
        · exact ⟨[], by simp, by simp⟩
        · exact ⟨[], by simp [addEdge], by simp⟩
      · simp only [addUse]
        rcases crosses with _ | _
        · by_cases ho : opts.with_orphans = true
          · refine ⟨[Node.orphan lb], by simp [ho, pushOrphan], ?_⟩
            intro n hn
            rcases List.mem_cons.mp hn with rfl | hn
            · exact ⟨lb, rfl⟩
            · cases hn
          · exact ⟨[], by simp [ho], by simp⟩
        · by_cases ho : (opts.with_orphans && opts.with_externs) = true
          · refine ⟨[Node.orphan lb], by simp [ho, pushOrphan], ?_⟩
            intro n hn
            rcases List.mem_cons.mp hn with rfl | hn
            · exact ⟨lb, rfl⟩
            · cases hn
          · exact ⟨[], by simp [ho], by simp⟩
    rcases hstep with ⟨l0, hl0, hP0⟩
    refine ⟨l0 ++ l, ?_, ?_⟩
    · rw [hl, hl0, List.append_assoc]
    · intro n hn
      rcases List.mem_append.mp hn with hn | hn
      · exact hP0 n hn
      · exact hP n hn

theorem modulePaths_append_none {l1 l2 : List Node}
    (h : ∀ n ∈ l2, modulePath? n = none) :
    modulePaths (l1 ++ l2) = modulePaths l1 := by
  rw [modulePaths_append, modulePaths_eq_nil h, List.append_nil]

theorem buildMod_unfold (opts : BuilderOptions) (p? : Option Nat) (pref : List Name)
    (nm : Name) (vis : Vis) (isT : Bool) (items : List ItemFacts) (us : List UseFact)
    (kids : List SemTree) (g : Graph) :
    buildMod opts p? pref (.mk nm vis isT items us kids) g =
      buildKids opts (pushModule g (pref ++ [nm]) p?.isNone vis isT).2 (pref ++ [nm]) kids
        (items.foldl (pushType opts (pushModule g (pref ++ [nm]) p?.isNone vis isT).2
          (pref ++ [nm]))
          (addParentEdge p? (pushModule g (pref ++ [nm]) p?.isNone vis isT).1
            (pushModule g (pref ++ [nm]) p?.isNone vis isT).2)) := by
  rw [buildMod.eq_def]

theorem buildKids_nil (opts : BuilderOptions) (pidx : Nat) (pref : List Name) (g : Graph) :
    buildKids opts pidx pref [] g = g := by
  rw [buildKids.eq_def]

theorem buildKids_cons (opts : BuilderOptions) (pidx : Nat) (pref : List Name)
    (c : SemTree) (rest : List SemTree) (g : Graph) :
    buildKids opts pidx pref (c :: rest) g =
      buildKids opts pidx pref rest
        (if visitChild opts c then buildMod opts (some pidx) pref c g else g) := by
  rw [buildKids.eq_def]

theorem usesKids_nil (opts : BuilderOptions) (pref : List Name) (g : Graph) :
    usesKids opts pref [] g = g := by
  rw [usesKids.eq_def]

theorem usesKids_cons (opts : BuilderOptions) (pref : List Name)
    (c : SemTree) (rest : List SemTree) (g : Graph) :
    usesKids opts pref (c :: rest) g =
      usesKids opts pref rest (if visitChild opts c then usesMod opts pref c g else g) := by
  rw [usesKids.eq_def]

theorem usesMod_unfold (opts : BuilderOptions) (pref : List Name)
    (nm : Name) (vis : Vis) (isT : Bool) (items : List ItemFacts) (us : List UseFact)
    (kids : List SemTree) (g : Graph) :
    usesMod opts pref (.mk nm vis isT items us kids) g =
      usesKids opts (pref ++ [nm]) kids
        (addUses opts us g (findModuleIdx g.nodes (pref ++ [nm]))) := by
  rw [usesMod.eq_def]

theorem buildKids_inv (opts : BuilderOptions) :
    ∀ (ts : List SemTree),
      (∀ c ∈ ts, ∀ (p? : Option Nat) (pref : List Name) (g : Graph),
        (∃ l, (buildMod opts p? pref c g).nodes = g.nodes ++ l ∧
          ∀ n ∈ l, isRootNode n = true →
            p? = none ∧ n = Node.module (pref ++ [c.name]) true c.vis c.isTest) ∧
        ((modulePaths g.nodes).Nodup →
          (modulePaths (buildMod opts p? pref c g).nodes).Nodup)) →
      ∀ (pidx : Nat) (pref : List Name) (g : Graph),
        (∃ l, (buildKids opts pidx pref ts g).nodes = g.nodes ++ l ∧
          ∀ n ∈ l, isRootNode n = false) ∧
        ((modulePaths g.nodes).Nodup →
          (modulePaths (buildKids opts pidx pref ts g).nodes).Nodup) := by
  intro ts
  induction ts with
  | nil =>
    intro _ pidx pref g
    rw [buildKids_nil]
    exact ⟨⟨[], by simp, by simp⟩, fun h => h⟩
  | cons c rest ih =>
    intro hP pidx pref g
    rw [buildKids_cons]
    by_cases hv : visitChild opts c = true
    · rw [if_pos hv]
      obtain ⟨⟨l1, hl1, hR1⟩, hnd1⟩ := hP c (List.mem_cons_self c rest) (some pidx) pref g
      obtain ⟨⟨l2, hl2, hR2⟩, hnd2⟩ :=
        ih (fun c' hc' => hP c' (List.mem_cons_of_mem c hc')) pidx pref
          (buildMod opts (some pidx) pref c g)
      refine ⟨⟨l1 ++ l2, ?_, ?_⟩, fun hnd => hnd2 (hnd1 hnd)⟩
      · rw [hl2, hl1, List.append_assoc]
      · intro n hn
        rcases List.mem_append.mp hn with hn | hn
        · rcases hb : isRootNode n with _ | _
          · rfl
          · exact absurd (hR1 n hn hb).1 (by simp)
        · exact hR2 n hn
    · rw [if_neg hv]
      exact ih (fun c' hc' => hP c' (List.mem_cons_of_mem c hc')) pidx pref g

theorem addParentEdge_nodes (p? : Option Nat) (g : Graph) (i : Nat) :
    (addParentEdge p? g i).nodes = g.nodes := by
  cases p? <;> rfl

theorem buildMod_inv :
    ∀ (t : SemTree) (opts : BuilderOptions) (p? : Option Nat) (pref : List Name) (g : Graph),
      (∃ l, (buildMod opts p? pref t g).nodes = g.nodes ++ l ∧
        ∀ n ∈ l, isRootNode n = true →
          p? = none ∧ n = Node.module (pref ++ [t.name]) true t.vis t.isTest) ∧
      ((modulePaths g.nodes).Nodup → (modulePaths (buildMod opts p? pref t g).nodes).Nodup) := by
  refine SemTree.strongInd _ ?_
  intro nm vis isT items us kids ih opts p? pref g
  rw [buildMod_unfold]
  obtain ⟨hE1, ⟨l1, hN1, hM1⟩, hD1⟩ := pushModule_spec g (pref ++ [nm]) p?.isNone vis isT
  set gp := pushModule g (pref ++ [nm]) p?.isNone vis isT with hgp
  set gmid := addParentEdge p? gp.1 gp.2 with hgmid
  have hg2 : gmid.nodes = gp.1.nodes := addParentEdge_nodes p? gp.1 gp.2
  obtain ⟨l2, hl2, hT2⟩ :=
    foldl_pushType_spec opts gp.2 (pref ++ [nm]) items gmid
  set gty := items.foldl (pushType opts gp.2 (pref ++ [nm])) gmid with hgty
  obtain ⟨⟨l3, hl3, hR3⟩, hnd3⟩ :=
    buildKids_inv opts kids (fun c hc => ih c hc opts) gp.2 (pref ++ [nm]) gty
  constructor
  · refine ⟨l1 ++ l2 ++ l3, ?_, ?_⟩
    · rw [hl3, hl2, hg2, hN1]
      simp [List.append_assoc]
    · intro n hn hb
      rcases List.mem_append.mp hn with hn | hn3
      · rcases List.mem_append.mp hn with hn1 | hn2
        · have heq := hM1 n hn1
          subst heq
          simp only [isRootNode] at hb
          rcases p? with _ | pi
          · refine ⟨rfl, ?_⟩
            simp [SemTree.name, SemTree.vis, SemTree.isTest]
          · simp at hb
        · rcases hT2 n hn2 with ⟨q, k, v, rfl⟩
          simp [isRootNode] at hb
      · exact absurd (hR3 n hn3) (by simp [hb])
  · intro hnd
    apply hnd3
    have hmp : modulePaths gty.nodes = modulePaths gp.1.nodes := by
      rw [hl2, hg2]
      apply modulePaths_append_none
      intro n hn
      rcases hT2 n hn with ⟨q, k, v, rfl⟩
      rfl
    rw [hmp]
    exact hD1 hnd

theorem usesKids_inv (opts : BuilderOptions) :
    ∀ (ts : List SemTree),
      (∀ c ∈ ts, ∀ (pref : List Name) (g : Graph),
        ∃ l, (usesMod opts pref c g).nodes = g.nodes ++ l ∧
          ∀ n ∈ l, ∃ lb, n = Node.orphan lb) →
      ∀ (pref : List Name) (g : Graph),
        ∃ l, (usesKids opts pref ts g).nodes = g.nodes ++ l ∧
          ∀ n ∈ l, ∃ lb, n = Node.orphan lb := by
  intro ts
  induction ts with
  | nil =>
    intro _ pref g
    rw [usesKids_nil]
    exact ⟨[], by simp, by simp⟩
  | cons c rest ih =>
    intro hP pref g
    rw [usesKids_cons]
    by_cases hv : visitChild opts c = true
    · rw [if_pos hv]
      obtain ⟨l1, hl1, hO1⟩ := hP c (List.mem_cons_self c rest) pref g
      obtain ⟨l2, hl2, hO2⟩ :=
        ih (fun c' hc' => hP c' (List.mem_cons_of_mem c hc')) pref (usesMod opts pref c g)
      refine ⟨l1 ++ l2, ?_, ?_⟩
      · rw [hl2, hl1, List.append_assoc]
      · intro n hn
        rcases List.mem_append.mp hn with hn | hn
        · exact hO1 n hn
        · exact hO2 n hn
    · rw [if_neg hv]
      exact ih (fun c' hc' => hP c' (List.mem_cons_of_mem c hc')) pref g

theorem addUses_nodes (opts : BuilderOptions) (us : List UseFact) (g : Graph)
    (f : Option Nat) :
    ∃ l, (addUses opts us g f).nodes = g.nodes ++ l ∧
      ∀ n ∈ l, ∃ lb, n = Node.orphan lb := by
  rcases f with _ | i
  · exact ⟨[], by simp [addUses], by simp⟩
  · by_cases hu : opts.with_uses = true
    · rcases foldl_addUse_spec opts i us g with ⟨l, hl, hO⟩
      exact ⟨l, by simpa [addUses, hu] using hl, hO⟩
    · exact ⟨[], by simp [addUses, hu], by simp⟩

theorem usesMod_inv :
    ∀ (t : SemTree) (opts : BuilderOptions) (pref : List Name) (g : Graph),
      ∃ l, (usesMod opts pref t g).nodes = g.nodes ++ l ∧
        ∀ n ∈ l, ∃ lb, n = Node.orphan lb := by
  refine SemTree.strongInd _ ?_
  intro nm vis isT items us kids ih opts pref g
  rw [usesMod_unfold]
  obtain ⟨l1, hl1, hO1⟩ := addUses_nodes opts us g (findModuleIdx g.nodes (pref ++ [nm]))
  obtain ⟨l2, hl2, hO2⟩ := usesKids_inv opts kids (fun c hc => ih c hc opts) (pref ++ [nm])
    (addUses opts us g (findModuleIdx g.nodes (pref ++ [nm])))
  refine ⟨l1 ++ l2, ?_, ?_⟩
  · rw [hl2, hl1, List.append_assoc]
  · intro n hn
    rcases List.mem_append.mp hn with hn | hn
    · exact hO1 n hn
    · exact hO2 n hn

theorem build_nodes_shape (opts : BuilderOptions) (t : SemTree) :
    ∃ l, (build opts t).nodes = Node.module [t.name] true t.vis t.isTest :: l ∧
      ∀ n ∈ l, isRootNode n = false := by
  rcases t with ⟨nm, vis, isT, items, us, kids⟩
  simp only [build]
  have hpm : pushModule ⟨[], []⟩ ([] ++ [nm]) (Option.isNone (none : Option Nat)) vis isT =
      (⟨[Node.module [nm] true vis isT], []⟩, 0) := by
    rfl
  rw [buildMod_unfold, hpm]
  have hpe : addParentEdge none (⟨[Node.module [nm] true vis isT], []⟩ : Graph) 0 =
      ⟨[Node.module [nm] true vis isT], []⟩ := rfl
  rw [hpe]
  obtain ⟨l2, hl2, hT2⟩ := foldl_pushType_spec opts 0 ([] ++ [nm]) items
    ⟨[Node.module [nm] true vis isT], []⟩
  obtain ⟨⟨l3, hl3, hR3⟩, _⟩ := buildKids_inv opts kids
    (fun c hc => buildMod_inv c opts) 0 ([] ++ [nm])
    (items.foldl (pushType opts 0 ([] ++ [nm])) ⟨[Node.module [nm] true vis isT], []⟩)
  obtain ⟨l4, hl4, hO4⟩ := usesMod_inv (.mk nm vis isT items us kids) opts []
    (buildKids opts 0 ([] ++ [nm]) kids
      (items.foldl (pushType opts 0 ([] ++ [nm])) ⟨[Node.module [nm] true vis isT], []⟩))
  refine ⟨l2 ++ l3 ++ l4, ?_, ?_⟩
  · rw [hl4, hl3, hl2]
    simp [SemTree.name, SemTree.vis, SemTree.isTest, List.append_assoc]
  · intro n hn
    rcases List.mem_append.mp hn with hn | hn4
    · rcases List.mem_append.mp hn with hn2 | hn3
      · rcases hT2 n hn2 with ⟨q, k, v, rfl⟩
        rfl
      · exact hR3 n hn3
    · rcases hO4 n hn4 with ⟨lb, rfl⟩
      rfl

theorem build_modulePaths_nodup (opts : BuilderOptions) (t : SemTree) :
    (modulePaths (build opts t).nodes).Nodup := by
  simp only [build]
  have h1 : (modulePaths (buildMod opts none [] t ⟨[], []⟩).nodes).Nodup :=
    (buildMod_inv t opts none [] ⟨[], []⟩).2 (by simp [modulePaths])
  obtain ⟨l, hl, ho⟩ := usesMod_inv t opts [] (buildMod opts none [] t ⟨[], []⟩)
  rw [hl, modulePaths_append_none]
  · exact h1
  · intro n hn
    rcases ho n hn with ⟨lb, rfl⟩
    rfl

/-- C2: in every graph the Builder produces, no two `Module` nodes share a
qualified path, and exactly one node carries `is_root = true` — the node at
index 0, which is the module of the program unit handed to the builder
(single-segment path holding the unit's own name). -/
theorem builder_unique_paths_single_root (opts : BuilderOptions) (t : SemTree) :
    (modulePaths (build opts t).nodes).Nodup ∧
    (build opts t).nodes[0]? = some (Node.module [t.name] true t.vis t.isTest) ∧
    ∀ i n, (build opts t).nodes[i]? = some n → isRootNode n = true → i = 0 := by
  obtain ⟨l, hl, hnr⟩ := build_nodes_shape opts t
  refine ⟨build_modulePaths_nodup opts t, by rw [hl]; simp, ?_⟩
  intro i n hi hb
  rcases i with _ | j
  · rfl
  · exfalso
    rw [hl] at hi
    simp only [List.getElem?_cons_succ] at hi
    have hn : n ∈ l := List.mem_iff_getElem?.mpr ⟨j, hi⟩
    rw [hnr n hn] at hb
    cases hb

theorem builder_unique_paths_single_root_witness :
    (0 : Nat) = 0 ∧
      (modulePaths (build ⟨none, none, true, true, true, true, true⟩
        (.mk ['a'] .visPub false [] [] [])).nodes).Nodup :=
  ⟨(builder_unique_paths_single_root ⟨none, none, true, true, true, true, true⟩
      (.mk ['a'] .visPub false [] [] [])).2.2 0 (Node.module [['a']] true .visPub false)
      (by decide) (by decide),
    (builder_unique_paths_single_root ⟨none, none, true, true, true, true, true⟩
      (.mk ['a'] .visPub false [] [] [])).1⟩

/-- C4: resolving the qualified path of any `Module` node present in a
built graph succeeds and returns that node's own index. -/
theorem resolve_module_roundtrip (opts : BuilderOptions) (t : SemTree) (i : Nat)
    (p : List Name) (r : Bool) (v : Vis) (b : Bool)
    (h : (build opts t).nodes[i]? = some (Node.module p r v b)) :
    idx_of_node_with_path (build opts t) p = .ok i :=
  idx_ok_of_unique h (by simp [isModuleWithPath]) (build_modulePaths_nodup opts t)

theorem resolve_module_roundtrip_witness :
    idx_of_node_with_path
      (build ⟨none, none, true, true, true, true, true⟩
        (.mk ['a'] .visPub false [] [] [.mk ['u'] .visPub false [] [] []])) [['a'], ['u']] =
      .ok 1 :=
  resolve_module_roundtrip ⟨none, none, true, true, true, true, true⟩
    (.mk ['a'] .visPub false [] [] [.mk ['u'] .visPub false [] [] []]) 1 [['a'], ['u']]
    false .visPub false (by decide)

theorem splitPath_no_sep :
    ∀ (s : Name), hasSep s = false → ∀ acc, splitPath acc s = [acc.reverse ++ s] := by
  intro s
  induction s with
  | nil =>
    intro _ acc
    simp [splitPath]
  | cons c rest ih =>
    intro h acc
    rcases rest with _ | ⟨c2, rest2⟩
    · simp [splitPath]
    · have hsep : (c == ':' && c2 == ':') = false := by
        by_contra hc
        rw [Bool.not_eq_false] at hc
        rw [hasSep, hc, Bool.true_or] at h
        cases h
      have htail : hasSep (c2 :: rest2) = false := by
        rw [hasSep, hsep, Bool.false_or] at h
        exact h
      have hstep : splitPath acc (c :: c2 :: rest2) =
          if c == ':' && c2 == ':' then acc.reverse :: splitPath [] rest2
          else splitPath (c :: acc) (c2 :: rest2) := rfl
      rw [hstep, if_neg (by simp [hsep])]
      rw [ih htail (c :: acc)]
      simp

/-- C6: with `focus_on` absent, `Command::run` falls back to the crate's
own name, whose `::`-split is the single-segment path of that name (crate
names contain no `::`), and resolving it returns index 0 — the root
module's node. -/
theorem absent_focus_resolves_root (go : SharedGraphOptions) (opts : BuilderOptions)
    (t : SemTree) (habsent : go.focus_on = none) (hname : hasSep t.name = false) :
    focusPathOf go t.name = [t.name] ∧
    idx_of_node_with_path (build opts t) (focusPathOf go t.name) = .ok 0 := by
  have hfp : focusPathOf go t.name = [t.name] := by
    rw [focusPathOf, habsent]
    simp only [Option.getD_none]
    rw [splitPath_no_sep t.name hname []]
    simp
  refine ⟨hfp, ?_⟩
  rw [hfp]
  obtain ⟨l, hl, _⟩ := build_nodes_shape opts t
  apply idx_ok_of_unique (n := Node.module [t.name] true t.vis t.isTest)
  · rw [hl]
    simp
  · simp [isModuleWithPath]
  · exact build_modulePaths_nodup opts t

theorem absent_focus_resolves_root_witness :
    focusPathOf ⟨none, none, true, true, true⟩ ['a', 'p', 'p'] = [['a', 'p', 'p']] ∧
      idx_of_node_with_path
        (build ⟨none, none, true, true, true, true, true⟩
          (.mk ['a', 'p', 'p'] .visPub false [] [] []))
        (focusPathOf ⟨none, none, true, true, true⟩ ['a', 'p', 'p']) = .ok 0 :=
  absent_focus_resolves_root ⟨none, none, true, true, true⟩
    ⟨none, none, true, true, true, true, true⟩ (.mk ['a', 'p', 'p'] .visPub false [] [] [])
    rfl (by decide)

theorem foldl_pushType_edges (opts : BuilderOptions) (idx : Nat) (p : List Name) :
    ∀ (items : List ItemFacts) (g : Graph) (e : Edge),
      e ∈ (items.foldl (pushType opts idx p) g).edges → e ∈ g.edges ∨ e.kind = .owns := by
  intro items
  induction items with
  | nil =>
    intro g e he
    exact Or.inl (by simpa using he)
  | cons it rest ih =>
    intro g e he
    rw [List.foldl_cons] at he
    rcases ih (pushType opts idx p g it) e he with h | h
    · by_cases hk : keepItem opts it = true
      · simp only [pushType, hk, if_true] at h
        rcases List.mem_append.mp h with h | h
        · exact Or.inl h
        · right
          simp only [List.mem_singleton] at h
          rw [h]
      · simp only [pushType, hk] at h
        simp at h
        exact Or.inl h
    · exact Or.inr h

theorem buildKids_edges_owns (opts : BuilderOptions) :
    ∀ (ts : List SemTree),
      (∀ c ∈ ts, ∀ (p? : Option Nat) (pref : List Name) (g : Graph),
        (∀ e ∈ g.edges, e.kind = EdgeKind.owns) →
        ∀ e ∈ (buildMod opts p? pref c g).edges, e.kind = EdgeKind.owns) →
      ∀ (pidx : Nat) (pref : List Name) (g : Graph),
        (∀ e ∈ g.edges, e.kind = EdgeKind.owns) →
        ∀ e ∈ (buildKids opts pidx pref ts g).edges, e.kind = EdgeKind.owns := by
  intro ts
  induction ts with
  | nil =>
    intro _ pidx pref g hg e he
    rw [buildKids_nil] at he
    exact hg e he
  | cons c rest ih =>
    intro hP pidx pref g hg
    rw [buildKids_cons]
    by_cases hv : visitChild opts c = true
    · rw [if_pos hv]
      exact ih (fun c' hc' => hP c' (List.mem_cons_of_mem c hc')) pidx pref _
        (hP c (List.mem_cons_self c rest) (some pidx) pref g hg)
    · rw [if_neg hv]
      exact ih (fun c' hc' => hP c' (List.mem_cons_of_mem c hc')) pidx pref g hg

theorem buildMod_edges_owns :
    ∀ (t : SemTree) (opts : BuilderOptions) (p? : Option Nat) (pref : List Name) (g : Graph),
      (∀ e ∈ g.edges, e.kind = EdgeKind.owns) →
      ∀ e ∈ (buildMod opts p? pref t g).edges, e.kind = EdgeKind.owns := by
  refine SemTree.strongInd _ ?_
  intro nm vis isT items us kids ih opts p? pref g hg
  rw [buildMod_unfold]
  obtain ⟨hE1, _, _⟩ := pushModule_spec g (pref ++ [nm]) p?.isNone vis isT
  have hmid : ∀ e ∈ (addParentEdge p? (pushModule g (pref ++ [nm]) p?.isNone vis isT).1
      (pushModule g (pref ++ [nm]) p?.isNone vis isT).2).edges, e.kind = EdgeKind.owns := by
    rcases p? with _ | pi
    · intro e he
      simp only [addParentEdge] at he
      rw [hE1] at he
      exact hg e he
    · intro e he
      simp only [addParentEdge, addEdge] at he
      rcases List.mem_append.mp he with h | h
      · rw [hE1] at h
        exact hg e h
      · simp only [List.mem_singleton] at h
        rw [h]
  have hty : ∀ e ∈ ((items.foldl (pushType opts
      (pushModule g (pref ++ [nm]) p?.isNone vis isT).2 (pref ++ [nm]))
      (addParentEdge p? (pushModule g (pref ++ [nm]) p?.isNone vis isT).1
        (pushModule g (pref ++ [nm]) p?.isNone vis isT).2))).edges,
      e.kind = EdgeKind.owns := by
    intro e he
    rcases foldl_pushType_edges opts _ _ items _ e he with h | h
    · exact hmid e h
    · exact h
  exact buildKids_edges_owns opts kids (fun c hc => ih c hc opts) _ _ _ hty

theorem usesKids_no_uses (opts : BuilderOptions) (hu : opts.with_uses = false) :
    ∀ (ts : List SemTree),
      (∀ c ∈ ts, ∀ (pref : List Name) (g : Graph), usesMod opts pref c g = g) →
      ∀ (pref : List Name) (g : Graph), usesKids opts pref ts g = g := by
  intro ts
  induction ts with
  | nil =>
    intro _ pref g
    exact usesKids_nil opts pref g
  | cons c rest ih =>
    intro hP pref g
    rw [usesKids_cons]
    by_cases hv : visitChild opts c = true
    · rw [if_pos hv, hP c (List.mem_cons_self c rest) pref g]
      exact ih (fun c' hc' => hP c' (List.mem_cons_of_mem c hc')) pref g
    · rw [if_neg hv]
      exact ih (fun c' hc' => hP c' (List.mem_cons_of_mem c hc')) pref g

theorem usesMod_no_uses (opts : BuilderOptions) (hu : opts.with_uses = false) :
    ∀ (t : SemTree) (pref : List Name) (g : Graph), usesMod opts pref t g = g := by
  refine SemTree.strongInd _ ?_
  intro nm vis isT items us kids ih pref g
  rw [usesMod_unfold]
  have hau : addUses opts us g (findModuleIdx g.nodes (pref ++ [nm])) = g := by
    rcases h : findModuleIdx g.nodes (pref ++ [nm]) with _ | i
    · rfl
    · simp [addUses, hu]
  rw [hau]
  exact usesKids_no_uses opts hu kids ih (pref ++ [nm]) g

/-- C9: the tree subcommand forces `with_uses = false` and
`with_externs = false` on the builder whatever the user configured, and
consequently every edge of the graph it builds (the graph the shrinker and
tree renderer then see) is an `Owns` edge — no `Uses` or `Extern` edges
exist, so hop distance in tree mode is distance over `Owns` edges. -/
theorem tree_command_builder_owns_only (o : TreeCmdOptions) (t : SemTree) (e : Edge) :
    (Command.tree o).builder_options.with_uses = false ∧
    (Command.tree o).builder_options.with_externs = false ∧
    (e ∈ (build ((Command.tree o).builder_options) t).edges → e.kind = EdgeKind.owns) := by
  refine ⟨rfl, rfl, ?_⟩
  intro he
  rw [build, usesMod_no_uses _ rfl] at he
  exact buildMod_edges_owns t _ none [] ⟨[], []⟩ (by simp) e he

theorem tree_command_builder_owns_only_witness :
    (⟨0, 1, EdgeKind.owns⟩ : Edge) ∈
      (build ((Command.tree ⟨⟨false⟩, ⟨[]⟩, ⟨none, none, true, true, true⟩⟩).builder_options)
        (.mk ['a'] .visPub false [] [] [.mk ['b'] .visPub false [] [] []])).edges ∧
    (⟨0, 1, EdgeKind.owns⟩ : Edge).kind = EdgeKind.owns :=
  ⟨by decide,
    (tree_command_builder_owns_only ⟨⟨false⟩, ⟨[]⟩, ⟨none, none, true, true, true⟩⟩
      (.mk ['a'] .visPub false [] [] [.mk ['b'] .visPub false [] [] []])
      ⟨0, 1, EdgeKind.owns⟩).2.2 (by decide)⟩

/-- C10: when no module node of the module graph carries `is_root = true`,
the root lookup of `Runner::run` returns `None` — an orphan node is never
selected — the printer is invoked with `None`, and the run returns `Ok`. -/
theorem runner_run_no_root_ok (g : ModuleGraph)
    (h : ∀ n ∈ g.nodes, ∀ m, n.kind = RNodeKind.moduleKind m → m.is_root = false) :
    root_node_idx g = none ∧ Runner.run g = .ok none := by
  have hnone : root_node_idx g = none := by
    rw [root_node_idx, List.find?_eq_none]
    intro i hi
    rcases hni : g.nodes[i]? with _ | n
    · simp [hni]
    · have hmem : n ∈ g.nodes := List.mem_iff_getElem?.mpr ⟨i, hni⟩
      rcases hk : n.kind with m | _
      · simp [hni, rNodeIsRoot, hk, h n hmem m hk]
      · simp [hni, rNodeIsRoot, hk]
  exact ⟨hnone, by rw [Runner.run, hnone]⟩

theorem runner_run_no_root_ok_witness :
    root_node_idx ⟨[⟨RNodeKind.orphanKind⟩, ⟨RNodeKind.moduleKind ⟨false⟩⟩]⟩ = none ∧
      Runner.run ⟨[⟨RNodeKind.orphanKind⟩, ⟨RNodeKind.moduleKind ⟨false⟩⟩]⟩ = .ok none :=
  runner_run_no_root_ok ⟨[⟨RNodeKind.orphanKind⟩, ⟨RNodeKind.moduleKind ⟨false⟩⟩]⟩
    (by
      intro n hn m hm
      rcases List.mem_cons.mp hn with rfl | hn
      · cases hm
      · rcases List.mem_cons.mp hn with rfl | hn
        · cases hm
          rfl
        · cases hn)

theorem getElem?_append_of_some {α : Type} {l l2 : List α} {i : Nat} {x : α}
    (h : l[i]? = some x) : (l ++ l2)[i]? = some x := by
  have hi : i < l.length := (List.getElem?_eq_some.mp h).1
  rw [List.getElem?_append, if_pos hi]
  exact h

theorem SemEdgeAt_append {ns l : List Node} {e : Edge} {a b : Node}
    (h : SemEdgeAt ns e a b) : SemEdgeAt (ns ++ l) e a b :=
  ⟨getElem?_append_of_some h.1, getElem?_append_of_some h.2⟩

theorem getElem?_append_length {α : Type} (l : List α) (x : α) (l2 : List α) :
    (l ++ x :: l2)[l.length]? = some x := by
  rw [List.getElem?_append_right (Nat.le_refl _)]
  simp

theorem pathless_not_module {p : List Name} {n : Node} (h : entityPath? n = none) :
    isModuleWithPath p n = false := by
  cases n with
  | module q r v b => simp [entityPath?] at h
  | type q k v => rfl
  | orphan lb => rfl

theorem findModuleIdx_eq_none_iff {ns : List Node} {p : List Name} :
    findModuleIdx ns p = none ↔ p ∉ modulePaths ns := by
  rw [findModuleIdx, List.findIdx?_eq_none_iff]
  constructor
  · intro h hmem
    rcases List.mem_filterMap.mp hmem with ⟨n, hn, hpn⟩
    have hfalse := h n hn
    rw [isModuleWithPath_iff.mpr hpn] at hfalse
    cases hfalse
  · intro h n hn
    rcases hb : isModuleWithPath p n with _ | _
    · rfl
    · exact absurd (List.mem_filterMap.mpr ⟨n, hn, isModuleWithPath_iff.mp hb⟩) h

theorem findIdx?_append_not {α : Type} {p : α → Bool} {ns l : List α}
    (h : ∀ x ∈ l, p x = false) : (ns ++ l).findIdx? p = ns.findIdx? p := by
  rw [List.findIdx?_append, List.findIdx?_eq_none_iff.mpr h]
  simp

theorem findModuleIdx_append_pathless {ns l : List Node} {p : List Name}
    (h : ∀ n ∈ l, entityPath? n = none) :
    findModuleIdx (ns ++ l) p = findModuleIdx ns p :=
  findIdx?_append_not (fun n hn => pathless_not_module (h n hn))

theorem findEntityIdx_append_pathless {ns l : List Node} {p : List Name}
    (h : ∀ n ∈ l, entityPath? n = none) :
    findEntityIdx (ns ++ l) p = findEntityIdx ns p :=
  findIdx?_append_not (fun n hn => by simp [h n hn])

theorem findEntityIdx_eq_none_iff {ns : List Node} {p : List Name} :
    findEntityIdx ns p = none ↔ ∀ n ∈ ns, entityPath? n ≠ some p := by
  rw [findEntityIdx, List.findIdx?_eq_none_iff]
  constructor
  · intro h n hn
    have := h n hn
    simpa using this
  · intro h n hn
    simpa using h n hn

theorem findEntityIdx_some_payload {ns : List Node} {p : List Name} {j : Nat}
    (h : findEntityIdx ns p = some j) :
    ∃ b, ns[j]? = some b ∧ entityPath? b = some p := by
  rcases findIdx?_some_spec h with ⟨b, hb, hpb⟩
  exact ⟨b, hb, by simpa using hpb⟩

theorem findModuleIdx_canonical {ns : List Node} {p : List Name} {n : Node}
    (hnd : (modulePaths ns).Nodup) (hmem : n ∈ ns) (hn : modulePath? n = some p) :
    ∃ i, findModuleIdx ns p = some i ∧ ns[i]? = some n := by
  rcases hf : findModuleIdx ns p with _ | i
  · exact absurd (List.mem_filterMap.mpr ⟨n, hmem, hn⟩) (findModuleIdx_eq_none_iff.mp hf)
  · rcases findIdx?_some_spec hf with ⟨m, hm, hpm⟩
    rcases List.mem_iff_getElem?.mp hmem with ⟨j, hj⟩
    have hij : i = j := filterMap_nodup_getElem_unique modulePath? hnd hm hj
      (isModuleWithPath_iff.mp hpm) hn
    exact ⟨i, rfl, by rw [hij]; exact hj⟩

theorem nodup_flatMap_block_unique {α β : Type} (f : α → List β) :
    ∀ {l : List α} {x y : α} {a : β},
      (l.flatMap f).Nodup → x ∈ l → y ∈ l → a ∈ f x → a ∈ f y → x = y := by
  intro l
  induction l with
  | nil =>
    intro x y a _ hx _ _ _
    cases hx
  | cons z rest ih =>
    intro x y a hnd hx hy hax hay
    rw [List.flatMap_cons] at hnd
    rw [List.nodup_append] at hnd
    rcases List.mem_cons.mp hx with hx1 | hx2
    · rcases List.mem_cons.mp hy with hy1 | hy2
      · rw [hx1, hy1]
      · exact absurd (List.mem_flatMap.mpr ⟨y, hy2, hay⟩) (hnd.2.2 (hx1 ▸ hax))
    · rcases List.mem_cons.mp hy with hy1 | hy2
      · exact absurd (List.mem_flatMap.mpr ⟨x, hx2, hax⟩) (hnd.2.2 (hy1 ▸ hay))
      · exact ih hnd.2.1 hx2 hy2 hax hay

theorem nodup_flatMap_within {α β : Type} (f : α → List β) :
    ∀ {l : List α} {x : α}, (l.flatMap f).Nodup → x ∈ l → (f x).Nodup := by
  intro l
  induction l with
  | nil =>
    intro x _ hx
    cases hx
  | cons z rest ih =>
    intro x hnd hx
    rw [List.flatMap_cons, List.nodup_append] at hnd
    rcases List.mem_cons.mp hx with rfl | hx
    · exact hnd.1
    · exact ih hnd.2.1 hx

theorem visPos_unfold (opts : BuilderOptions) (pref : List Name) (nm : Name) (vis : Vis)
    (isT : Bool) (items : List ItemFacts) (us : List UseFact) (kids : List SemTree) :
    visPos opts pref (.mk nm vis isT items us kids) =
      (pref, SemTree.mk nm vis isT items us kids) :: visKidsPos opts (pref ++ [nm]) kids := by
  rw [visPos.eq_def]

theorem visKidsPos_nil (opts : BuilderOptions) (pref : List Name) :
    visKidsPos opts pref [] = [] := by
  rw [visKidsPos.eq_def]

theorem visKidsPos_cons (opts : BuilderOptions) (pref : List Name) (c : SemTree)
    (rest : List SemTree) :
    visKidsPos opts pref (c :: rest) =
      (if visitChild opts c then visPos opts pref c else []) ++ visKidsPos opts pref rest := by
  rw [visKidsPos.eq_def]

theorem visitChild_fullOpts (c : SemTree) : visitChild fullOpts c = true := by
  simp [visitChild, fullOpts]

theorem keepItem_fullOpts (it : ItemFacts) : keepItem fullOpts it = true := by
  simp [keepItem, fullOpts]

theorem visPos_mono :
    ∀ (t : SemTree) (opts : BuilderOptions) (pref : List Name)
      (pos : List Name × SemTree),
      pos ∈ visPos opts pref t → pos ∈ visPos fullOpts pref t := by
  have hkids : ∀ (ts : List SemTree),
      (∀ c ∈ ts, ∀ (opts : BuilderOptions) (pref : List Name) (pos : List Name × SemTree),
        pos ∈ visPos opts pref c → pos ∈ visPos fullOpts pref c) →
      ∀ (opts : BuilderOptions) (pref : List Name) (pos : List Name × SemTree),
        pos ∈ visKidsPos opts pref ts → pos ∈ visKidsPos fullOpts pref ts := by
    intro ts
    induction ts with
    | nil =>
      intro _ opts pref pos h
      rw [visKidsPos_nil] at h
      cases h
    | cons c rest ih =>
      intro hP opts pref pos h
      rw [visKidsPos_cons] at h
      rw [visKidsPos_cons]
      rcases List.mem_append.mp h with h | h
      · by_cases hv : visitChild opts c = true
        · rw [if_pos hv] at h
          exact List.mem_append_left _ (by
            rw [if_pos (visitChild_fullOpts c)]
            exact hP c (List.mem_cons_self c rest) opts pref pos h)
        · rw [if_neg hv] at h
          cases h
      · exact List.mem_append_right _
          (ih (fun c' hc' => hP c' (List.mem_cons_of_mem c hc')) opts pref pos h)
  refine SemTree.strongInd _ ?_
  intro nm vis isT items us kids ih opts pref pos h
  rw [visPos_unfold] at h
  rw [visPos_unfold]
  rcases List.mem_cons.mp h with rfl | h
  · exact List.mem_cons_self _ _
  · exact List.mem_cons_of_mem _ (hkids kids ih opts (pref ++ [nm]) pos h)

theorem typeNodesOf_pathless (opts : BuilderOptions) (pos : List Name × SemTree) :
    ∀ n ∈ typeNodesOf opts pos, modulePath? n = none := by
  intro n hn
  rcases List.mem_filterMap.mp hn with ⟨it, _, hit⟩
  by_cases hk : keepItem opts it = true
  · rw [if_pos hk] at hit
    cases hit
    rfl
  · rw [if_neg hk] at hit
    cases hit

theorem modulePaths_blocks (opts : BuilderOptions) :
    ∀ (L : List (List Name × SemTree)),
      modulePaths (L.flatMap (fun pos => mkMod pos :: typeNodesOf opts pos)) =
        L.map pathOf := by
  intro L
  induction L with
  | nil => rfl
  | cons pos rest ih =>
    rw [List.flatMap_cons, List.map_cons, modulePaths_append, ih]
    have hblock : modulePaths (mkMod pos :: typeNodesOf opts pos) = [pathOf pos] := by
      rw [modulePaths, List.filterMap_cons]
      have : modulePath? (mkMod pos) = some (pathOf pos) := rfl
      rw [this]
      have hnone : (typeNodesOf opts pos).filterMap modulePath? = [] :=
        modulePaths_eq_nil (typeNodesOf_pathless opts pos)
      rw [hnone]
    rw [hblock]
    rfl

theorem modulePaths_p1nodes (opts : BuilderOptions) (pref : List Name) (t : SemTree) :
    modulePaths (p1nodes opts pref t) = (visPos opts pref t).map pathOf := by
  rw [p1nodes]
  exact modulePaths_blocks opts _

theorem p1nodes_shape (opts : BuilderOptions) (pref : List Name) (t : SemTree) :
    ∀ n ∈ p1nodes opts pref t,
      (∃ pos ∈ visPos opts pref t, n = mkMod pos) ∨
      (∃ pos ∈ visPos opts pref t, ∃ it ∈ pos.2.items,
        keepItem opts it = true ∧ n = mkTy pos it) := by
  intro n hn
  rw [p1nodes] at hn
  rcases List.mem_flatMap.mp hn with ⟨pos, hpos, hmem⟩
  rcases List.mem_cons.mp hmem with rfl | hmem
  · exact Or.inl ⟨pos, hpos, rfl⟩
  · rcases List.mem_filterMap.mp hmem with ⟨it, hit, hsome⟩
    by_cases hk : keepItem opts it = true
    · rw [if_pos hk] at hsome
      cases hsome
      exact Or.inr ⟨pos, hpos, it, hit, hk, rfl⟩
    · rw [if_neg hk] at hsome
      cases hsome

theorem mkMod_mem_p1nodes (opts : BuilderOptions) (pref : List Name) (t : SemTree)
    {pos : List Name × SemTree} (h : pos ∈ visPos opts pref t) :
    mkMod pos ∈ p1nodes opts pref t := by
  rw [p1nodes]
  exact List.mem_flatMap.mpr ⟨pos, h, List.mem_cons_self _ _⟩

theorem mkTy_mem_p1nodes (opts : BuilderOptions) (pref : List Name) (t : SemTree)
    {pos : List Name × SemTree} {it : ItemFacts} (h : pos ∈ visPos opts pref t)
    (hit : it ∈ pos.2.items) (hk : keepItem opts it = true) :
    mkTy pos it ∈ p1nodes opts pref t := by
  rw [p1nodes]
  refine List.mem_flatMap.mpr ⟨pos, h, List.mem_cons_of_mem _ ?_⟩
  exact List.mem_filterMap.mpr ⟨it, hit, by rw [if_pos hk]⟩

theorem p1nodes_mono (opts : BuilderOptions) (pref : List Name) (t : SemTree) :
    ∀ n ∈ p1nodes opts pref t, n ∈ p1nodes fullOpts pref t := by
  intro n hn
  rcases p1nodes_shape opts pref t n hn with ⟨pos, hpos, rfl⟩ | ⟨pos, hpos, it, hit, _, rfl⟩
  · exact mkMod_mem_p1nodes fullOpts pref t (visPos_mono t opts pref pos hpos)
  · exact mkTy_mem_p1nodes fullOpts pref t (visPos_mono t opts pref pos hpos) hit
      (keepItem_fullOpts it)

theorem orphanFor_mono (opts : BuilderOptions) (u : UseFact) {n : Node}
    (h : orphanFor opts u = some n) : orphanFor fullOpts u = some n := by
  rcases u with p | ⟨label, crosses⟩
  · simp [orphanFor] at h
  · rcases crosses with _ | _
    · by_cases ho : opts.with_orphans = true
      · simpa [orphanFor, fullOpts] using (by simpa [orphanFor, ho] using h : Node.orphan label = n)
      · simp [orphanFor, ho] at h
    · by_cases ho : (opts.with_orphans && opts.with_externs) = true
      · simpa [orphanFor, fullOpts] using (by simpa [orphanFor, ho] using h : Node.orphan label = n)
      · simp [orphanFor, ho] at h

theorem orphanNodesOf_mono (opts : BuilderOptions) (pref : List Name) (t : SemTree) :
    ∀ n ∈ orphanNodesOf opts pref t, n ∈ orphanNodesOf fullOpts pref t := by
  intro n hn
  rw [orphanNodesOf] at hn
  by_cases hu : opts.with_uses = true
  · rw [if_pos hu] at hn
    rcases List.mem_flatMap.mp hn with ⟨pos, hpos, hmem⟩
    rcases List.mem_filterMap.mp hmem with ⟨u, hu2, hor⟩
    rw [orphanNodesOf]
    rw [if_pos (by simp [fullOpts])]
    exact List.mem_flatMap.mpr ⟨pos, visPos_mono t opts pref pos hpos,
      List.mem_filterMap.mpr ⟨u, hu2, orphanFor_mono opts u hor⟩⟩
  · rw [if_neg hu] at hn
    cases hn

theorem entityPath_mkMod (pos : List Name × SemTree) :
    entityPath? (mkMod pos) = some (pathOf pos) := rfl

theorem entityPath_mkTy (pos : List Name × SemTree) (it : ItemFacts) :
    entityPath? (mkTy pos it) = some (pathOf pos ++ [it.name]) := rfl

theorem canonical_entity_unique {t : SemTree} (hWF : WF t) {n n2 : Node} {p : List Name}
    (hc : (∃ pos ∈ visPos fullOpts [] t, n = mkMod pos) ∨
      (∃ pos ∈ visPos fullOpts [] t, ∃ it ∈ pos.2.items, n = mkTy pos it))
    (hc2 : (∃ pos ∈ visPos fullOpts [] t, n2 = mkMod pos) ∨
      (∃ pos ∈ visPos fullOpts [] t, ∃ it ∈ pos.2.items, n2 = mkTy pos it))
    (hp : entityPath? n = some p) (hp2 : entityPath? n2 = some p) : n = n2 := by
  rw [WF, allEntityPaths] at hWF
  rcases hc with ⟨pos, hpos, rfl⟩ | ⟨pos, hpos, it, hit, rfl⟩ <;>
    rcases hc2 with ⟨pos2, hpos2, rfl⟩ | ⟨pos2, hpos2, it2, hit2, rfl⟩
  · rw [entityPath_mkMod, Option.some_inj] at hp hp2
    have hm1 : p ∈ pathOf pos :: pos.2.items.map (fun it => pathOf pos ++ [it.name]) := by
      rw [← hp]
      exact List.mem_cons_self _ _
    have hm2 : p ∈ pathOf pos2 :: pos2.2.items.map (fun it => pathOf pos2 ++ [it.name]) := by
      rw [← hp2]
      exact List.mem_cons_self _ _
    have := nodup_flatMap_block_unique _ hWF hpos hpos2 hm1 hm2
    rw [this]
  · exfalso
    rw [entityPath_mkMod, Option.some_inj] at hp
    rw [entityPath_mkTy, Option.some_inj] at hp2
    have hm1 : p ∈ pathOf pos :: pos.2.items.map (fun it => pathOf pos ++ [it.name]) := by
      rw [← hp]
      exact List.mem_cons_self _ _
    have hm2 : p ∈ pathOf pos2 :: pos2.2.items.map (fun it => pathOf pos2 ++ [it.name]) := by
      exact List.mem_cons_of_mem _ (List.mem_map.mpr ⟨it2, hit2, hp2⟩)
    have heq := nodup_flatMap_block_unique _ hWF hpos hpos2 hm1 hm2
    subst heq
    have hwithin := nodup_flatMap_within _ hWF hpos
    rw [List.nodup_cons] at hwithin
    exact hwithin.1 (List.mem_map.mpr ⟨it2, hit2, hp2.trans hp.symm⟩)
  · exfalso
    rw [entityPath_mkTy, Option.some_inj] at hp
    rw [entityPath_mkMod, Option.some_inj] at hp2
    have hm1 : p ∈ pathOf pos :: pos.2.items.map (fun it => pathOf pos ++ [it.name]) := by
      exact List.mem_cons_of_mem _ (List.mem_map.mpr ⟨it, hit, hp⟩)
    have hm2 : p ∈ pathOf pos2 :: pos2.2.items.map (fun it => pathOf pos2 ++ [it.name]) := by
      rw [← hp2]
      exact List.mem_cons_self _ _
    have heq := nodup_flatMap_block_unique _ hWF hpos hpos2 hm1 hm2
    subst heq
    have hwithin := nodup_flatMap_within _ hWF hpos
    rw [List.nodup_cons] at hwithin
    exact hwithin.1 (List.mem_map.mpr ⟨it, hit, hp.trans hp2.symm⟩)
  · rw [entityPath_mkTy, Option.some_inj] at hp hp2
    have hm1 : p ∈ pathOf pos :: pos.2.items.map (fun it => pathOf pos ++ [it.name]) :=
      List.mem_cons_of_mem _ (List.mem_map.mpr ⟨it, hit, hp⟩)
    have hm2 : p ∈ pathOf pos2 :: pos2.2.items.map (fun it => pathOf pos2 ++ [it.name]) :=
      List.mem_cons_of_mem _ (List.mem_map.mpr ⟨it2, hit2, hp2⟩)
    have heq := nodup_flatMap_block_unique _ hWF hpos hpos2 hm1 hm2
    subst heq
    have hwithin := nodup_flatMap_within _ hWF hpos
    rw [List.nodup_cons] at hwithin
    have hinj := List.inj_on_of_nodup_map hwithin.2
    have hitit2 : it = it2 := hinj hit hit2 (by rw [hp, hp2])
    rw [hitit2]

theorem foldl_pushType_exact (opts : BuilderOptions) (idx : Nat) (p : List Name) :
    ∀ (items : List ItemFacts) (g : Graph),
      (items.foldl (pushType opts idx p) g).nodes =
        g.nodes ++ items.filterMap (fun it => if keepItem opts it then
          some (Node.type (p ++ [it.name]) it.kind it.vis) else none) ∧
      (∀ e ∈ g.edges, e ∈ (items.foldl (pushType opts idx p) g).edges) ∧
      (∀ e ∈ (items.foldl (pushType opts idx p) g).edges, e ∈ g.edges ∨
        (e.kind = .owns ∧ e.src = idx ∧ ∃ it ∈ items, keepItem opts it = true ∧
          (items.foldl (pushType opts idx p) g).nodes[e.dst]? =
            some (Node.type (p ++ [it.name]) it.kind it.vis))) ∧
      (∀ it ∈ items, keepItem opts it = true →
        ∃ e ∈ (items.foldl (pushType opts idx p) g).edges, e.kind = .owns ∧ e.src = idx ∧
          (items.foldl (pushType opts idx p) g).nodes[e.dst]? =
            some (Node.type (p ++ [it.name]) it.kind it.vis)) := by
  intro items
  induction items with
  | nil =>
    intro g
    refine ⟨by simp, fun e he => he, fun e he => Or.inl he, ?_⟩
    intro it hit
    cases hit
  | cons it rest ih =>
    intro g
    rw [List.foldl_cons]
    by_cases hk : keepItem opts it = true
    · have hpt : pushType opts idx p g it =
          { nodes := g.nodes ++ [Node.type (p ++ [it.name]) it.kind it.vis]
            edges := g.edges ++ [⟨idx, g.nodes.length, .owns⟩] } := by
        rw [pushType, if_pos hk]
      obtain ⟨ihN, ihM, ihS, ihC⟩ := ih (pushType opts idx p g it)
      have hNfin : (rest.foldl (pushType opts idx p) (pushType opts idx p g it)).nodes =
          g.nodes ++ (Node.type (p ++ [it.name]) it.kind it.vis ::
            rest.filterMap (fun it => if keepItem opts it then
              some (Node.type (p ++ [it.name]) it.kind it.vis) else none)) := by
        rw [ihN, hpt]
        simp
      refine ⟨?_, ?_, ?_, ?_⟩
      · rw [hNfin]
        rw [List.filterMap_cons]
        simp [hk]
      · intro e he
        apply ihM
        rw [hpt]
        exact List.mem_append_left _ he
      · intro e he
        rcases ihS e he with he2 | ⟨hek, hes, it2, hit2, hk2, hd2⟩
        · rw [hpt] at he2
          rcases List.mem_append.mp he2 with he3 | he3
          · exact Or.inl he3
          · simp only [List.mem_singleton] at he3
            subst he3
            refine Or.inr ⟨rfl, rfl, it, List.mem_cons_self _ _, hk, ?_⟩
            rw [hNfin]
            exact getElem?_append_length _ _ _
        · exact Or.inr ⟨hek, hes, it2, List.mem_cons_of_mem _ hit2, hk2, hd2⟩
      · intro it2 hit2 hk2
        rcases List.mem_cons.mp hit2 with rfl | hit2
        · refine ⟨⟨idx, g.nodes.length, .owns⟩, ?_, rfl, rfl, ?_⟩
          · apply ihM
            rw [hpt]
            exact List.mem_append_right _ (List.mem_singleton_self _)
          · rw [hNfin]
            exact getElem?_append_length _ _ _
        · exact ihC it2 hit2 hk2
    · have hpt : pushType opts idx p g it = g := by
        rw [pushType, if_neg hk]
      rw [hpt]
      obtain ⟨ihN, ihM, ihS, ihC⟩ := ih g
      refine ⟨?_, ihM, ?_, ?_⟩
      · rw [ihN, List.filterMap_cons]
        simp [hk]
      · intro e he
        rcases ihS e he with he2 | ⟨hek, hes, it2, hit2, hk2, hd2⟩
        · exact Or.inl he2
        · exact Or.inr ⟨hek, hes, it2, List.mem_cons_of_mem _ hit2, hk2, hd2⟩
      · intro it2 hit2 hk2
        rcases List.mem_cons.mp hit2 with rfl | hit2
        · exact absurd hk2 hk
        · exact ihC it2 hit2 hk2

theorem foldl_addUse_exact (opts : BuilderOptions) (idx : Nat) :
    ∀ (us : List UseFact) (g : Graph),
      (∃ lo, (us.foldl (addUse opts idx) g).nodes = g.nodes ++ lo ∧
        ∀ n ∈ lo, entityPath? n = none) ∧
      (∀ e ∈ g.edges, e ∈ (us.foldl (addUse opts idx) g).edges) ∧
      (∀ e ∈ (us.foldl (addUse opts idx) g).edges, e ∈ g.edges ∨
        (e.src = idx ∧
          ((e.kind = .uses ∧ ∃ p b, UseFact.resolved p ∈ us ∧ b ∈ g.nodes ∧
            entityPath? b = some p ∧
            (us.foldl (addUse opts idx) g).nodes[e.dst]? = some b) ∨
          (e.kind = .uses ∧ ∃ label, UseFact.unresolved label false ∈ us ∧
            opts.with_orphans = true ∧
            (us.foldl (addUse opts idx) g).nodes[e.dst]? = some (Node.orphan label)) ∨
          (e.kind = .externs ∧ ∃ label, UseFact.unresolved label true ∈ us ∧
            opts.with_orphans = true ∧ opts.with_externs = true ∧
            (us.foldl (addUse opts idx) g).nodes[e.dst]? = some (Node.orphan label))))) ∧
      (∀ p j b, UseFact.resolved p ∈ us → findEntityIdx g.nodes p = some j →
        g.nodes[j]? = some b →
        ∃ e ∈ (us.foldl (addUse opts idx) g).edges, e.kind = .uses ∧ e.src = idx ∧
          (us.foldl (addUse opts idx) g).nodes[e.dst]? = some b) ∧
      (∀ label, UseFact.unresolved label false ∈ us → opts.with_orphans = true →
        ∃ e ∈ (us.foldl (addUse opts idx) g).edges, e.kind = .uses ∧ e.src = idx ∧
          (us.foldl (addUse opts idx) g).nodes[e.dst]? = some (Node.orphan label)) ∧
      (∀ label, UseFact.unresolved label true ∈ us → opts.with_orphans = true →
        opts.with_externs = true →
        ∃ e ∈ (us.foldl (addUse opts idx) g).edges, e.kind = .externs ∧ e.src = idx ∧
          (us.foldl (addUse opts idx) g).nodes[e.dst]? = some (Node.orphan label)) := by
  intro us
  induction us with
  | nil =>
    intro g
    refine ⟨⟨[], by simp, by simp⟩, fun e he => he, fun e he => Or.inl he, ?_, ?_, ?_⟩
    · intro p j b hmem
      cases hmem
    · intro label hmem
      cases hmem
    · intro label hmem
      cases hmem
  | cons u rest ih =>
    intro g
    rw [List.foldl_cons]
    obtain ⟨⟨lo, hlo, hloP⟩, ihM, ihS, ihCr, ihCo, ihCx⟩ := ih (addUse opts idx g u)
    have hstep : (∃ l0, (addUse opts idx g u).nodes = g.nodes ++ l0 ∧
        ∀ n ∈ l0, entityPath? n = none) := by
      rcases u with q | ⟨lb, crosses⟩
      · simp only [addUse]
        rcases h : findEntityIdx g.nodes q with _ | j
        · exact ⟨[], by simp, by simp⟩
        · exact ⟨[], by simp [addEdge], by simp⟩
      · simp only [addUse]
        rcases crosses with _ | _
        · by_cases ho : opts.with_orphans = true
          · exact ⟨[Node.orphan lb], by simp [ho, pushOrphan], by
              intro n hn
              rcases List.mem_cons.mp hn with rfl | hn
              · rfl
              · cases hn⟩
          · exact ⟨[], by simp [ho], by simp⟩
        · by_cases ho : (opts.with_orphans && opts.with_externs) = true
          · exact ⟨[Node.orphan lb], by simp [ho, pushOrphan], by
              intro n hn
              rcases List.mem_cons.mp hn with rfl | hn
              · rfl
              · cases hn⟩
          · exact ⟨[], by simp [ho], by simp⟩
    obtain ⟨l0, hl0, hl0P⟩ := hstep
    have hNfin : (rest.foldl (addUse opts idx) (addUse opts idx g u)).nodes =
        g.nodes ++ (l0 ++ lo) := by
      rw [hlo, hl0, List.append_assoc]
    have hstab : ∀ (j : Nat) (b : Node), g.nodes[j]? = some b →
        (rest.foldl (addUse opts idx) (addUse opts idx g u)).nodes[j]? = some b := by
      intro j b hj
      rw [hNfin]
      exact getElem?_append_of_some hj
    have hfindstab : ∀ q, findEntityIdx (addUse opts idx g u).nodes q =
        findEntityIdx g.nodes q := by
      intro q
      rw [hl0]
      exact findEntityIdx_append_pathless hl0P
    refine ⟨⟨l0 ++ lo, hNfin, ?_⟩, ?_, ?_, ?_, ?_, ?_⟩
    · intro n hn
      rcases List.mem_append.mp hn with hn | hn
      · exact hl0P n hn
      · exact hloP n hn
    · -- old edges survive the whole fold
      intro e he
      apply ihM
      rcases u with q | ⟨lb, crosses⟩
      · simp only [addUse]
        rcases h : findEntityIdx g.nodes q with _ | j
        · exact he
        · simp only [addEdge]
          exact List.mem_append_left _ he
      · simp only [addUse]
        rcases crosses with _ | _
        · by_cases ho : opts.with_orphans = true
          · simp only [ho, if_true, pushOrphan]
            exact List.mem_append_left _ he
          · simp only [ho, if_false]
            exact he
        · by_cases ho : (opts.with_orphans && opts.with_externs) = true
          · simp only [ho, if_true, pushOrphan]
            exact List.mem_append_left _ he
          · simp only [ho, if_false]
            exact he
    · -- soundness
      intro e he
      rcases ihS e he with he2 | ⟨hes, hshape⟩
      · -- either an edge of g, or the edge added for the head use fact
        rcases u with q | ⟨lb, crosses⟩
        · simp only [addUse] at he2
          rcases h : findEntityIdx g.nodes q with _ | j
          · rw [h] at he2
            exact Or.inl he2
          · rw [h] at he2
            simp only [addEdge] at he2
            rcases List.mem_append.mp he2 with he3 | he3
            · exact Or.inl he3
            · simp only [List.mem_singleton] at he3
              subst he3
              rcases findEntityIdx_some_payload h with ⟨b, hb, hpb⟩
              exact Or.inr ⟨rfl, Or.inl ⟨rfl, q, b, List.mem_cons_self _ _,
                List.mem_iff_getElem?.mpr ⟨j, hb⟩, hpb, hstab j b hb⟩⟩
        · simp only [addUse] at he2
          rcases crosses with _ | _
          · by_cases ho : opts.with_orphans = true
            · simp only [ho, if_true, pushOrphan] at he2
              rcases List.mem_append.mp he2 with he3 | he3
              · exact Or.inl he3
              · simp only [List.mem_singleton] at he3
                subst he3
                refine Or.inr ⟨rfl, Or.inr (Or.inl ⟨rfl, lb, List.mem_cons_self _ _, ho, ?_⟩)⟩
                rw [hNfin]
                have hl0eq : g.nodes ++ [Node.orphan lb] = g.nodes ++ l0 := by
                  rw [← hl0]
                  simp [addUse, ho, pushOrphan]
                have hcons : l0 ++ lo = Node.orphan lb :: lo := by
                  rw [(List.append_cancel_left hl0eq).symm]
                  rfl
                rw [hcons]
                exact getElem?_append_length _ _ _
            · refine Or.inl ?_
              simpa [ho] using he2
          · by_cases ho : (opts.with_orphans && opts.with_externs) = true
            · simp only [ho, if_true, pushOrphan] at he2
              rcases List.mem_append.mp he2 with he3 | he3
              · exact Or.inl he3
              · simp only [List.mem_singleton] at he3
                subst he3
                refine Or.inr ⟨rfl, Or.inr (Or.inr ⟨rfl, lb, List.mem_cons_self _ _,
                  (Bool.and_eq_true_iff.mp ho).1, (Bool.and_eq_true_iff.mp ho).2, ?_⟩)⟩
                rw [hNfin]
                have hl0eq : g.nodes ++ [Node.orphan lb] = g.nodes ++ l0 := by
                  rw [← hl0]
                  simp [addUse, ho, pushOrphan]
                have hcons : l0 ++ lo = Node.orphan lb :: lo := by
                  rw [(List.append_cancel_left hl0eq).symm]
                  rfl
                rw [hcons]
                exact getElem?_append_length _ _ _
            · refine Or.inl ?_
              simpa [ho] using he2
      · -- the rest of the fold: weaken the witnesses to the longer lists
        rcases hshape with ⟨hek, q, b, hq, hbmem, hpb, hd⟩ | ⟨hek, lb, hlb, ho, hd⟩ |
          ⟨hek, lb, hlb, ho, hx, hd⟩
        · -- resolved target: the entity lives in the pre-step nodes
          have hbg : b ∈ g.nodes := by
            rw [hl0] at hbmem
            rcases List.mem_append.mp hbmem with h | h
            · exact h
            · rw [hl0P b h] at hpb
              cases hpb
          exact Or.inr ⟨hes, Or.inl ⟨hek, q, b, List.mem_cons_of_mem _ hq, hbg, hpb, hd⟩⟩
        · exact Or.inr ⟨hes, Or.inr (Or.inl ⟨hek, lb, List.mem_cons_of_mem _ hlb, ho, hd⟩)⟩
        · exact Or.inr ⟨hes, Or.inr (Or.inr ⟨hek, lb, List.mem_cons_of_mem _ hlb, ho, hx, hd⟩)⟩
    · -- completeness for resolved targets
      intro p j b hmem hfind hj
      rcases List.mem_cons.mp hmem with heq | hmem
      · -- the head use fact is this resolved target
        subst heq
        have hadd : addUse opts idx g (UseFact.resolved p) =
            addEdge g idx j .uses := by
          simp only [addUse, hfind]
        refine ⟨⟨idx, j, .uses⟩, ?_, rfl, rfl, hstab j b hj⟩
        apply ihM
        rw [hadd]
        simp [addEdge]
      · exact ihCr p j b hmem (by rw [hfindstab]; exact hfind)
          (by rw [hl0]; exact getElem?_append_of_some hj)
    · -- completeness for in-unit orphans
      intro label hmem ho
      rcases List.mem_cons.mp hmem with heq | hmem
      · subst heq
        have hadd : addUse opts idx g (UseFact.unresolved label false) =
            pushOrphan g idx label .uses := by
          simp [addUse, ho]
        refine ⟨⟨idx, g.nodes.length, .uses⟩, ?_, rfl, rfl, ?_⟩
        · apply ihM
          rw [hadd]
          simp [pushOrphan]
        · have hl0eq : g.nodes ++ [Node.orphan label] = g.nodes ++ l0 := by
            rw [← hl0, hadd]
            rfl
          have hl0' : l0 = [Node.orphan label] := (List.append_cancel_left hl0eq).symm
          rw [hNfin, hl0']
          exact getElem?_append_length _ _ _
      · exact ihCo label hmem ho
    · -- completeness for extern orphans
      intro label hmem ho hx
      rcases List.mem_cons.mp hmem with heq | hmem
      · subst heq
        have hadd : addUse opts idx g (UseFact.unresolved label true) =
            pushOrphan g idx label .externs := by
          simp [addUse, ho, hx]
        refine ⟨⟨idx, g.nodes.length, .externs⟩, ?_, rfl, rfl, ?_⟩
        · apply ihM
          rw [hadd]
          simp [pushOrphan]
        · have hl0eq : g.nodes ++ [Node.orphan label] = g.nodes ++ l0 := by
            rw [← hl0, hadd]
            rfl
          have hl0' : l0 = [Node.orphan label] := (List.append_cancel_left hl0eq).symm
          rw [hNfin, hl0']
          exact getElem?_append_length _ _ _
      · exact ihCx label hmem ho hx

theorem isEmpty_append_singleton {α : Type} (l : List α) (x : α) :
    (l ++ [x]).isEmpty = false := by
  cases l <;> rfl

theorem buildKids_exact (o : BuilderOptions) (L : List (List Name × SemTree)) :
    ∀ (ts : List SemTree),
      (∀ c ∈ ts, ∀ (p? : Option Nat) (pref : List Name) (g : Graph),
        p?.isNone = pref.isEmpty →
        (∀ q ∈ (visPos o pref c).map pathOf, q ∉ modulePaths g.nodes) →
        ((visPos o pref c).map pathOf).Nodup →
        (∀ pos ∈ visPos o pref c, pos ∈ L) →
        (∀ pi, p? = some pi → ∃ pa, g.nodes[pi]? = some (mkMod pa) ∧ pa ∈ L ∧
          c ∈ pa.2.kids ∧ visitChild o c = true ∧ pref = pa.1 ++ [pa.2.name]) →
        (buildMod o p? pref c g).nodes = g.nodes ++ p1nodes o pref c ∧
        (∀ e ∈ g.edges, e ∈ (buildMod o p? pref c g).edges) ∧
        (∀ e ∈ (buildMod o p? pref c g).edges, e ∈ g.edges ∨
          (e.kind = .owns ∧ ∃ a b, SemEdgeAt (buildMod o p? pref c g).nodes e a b ∧
            ((∃ pa pc, pa ∈ L ∧ pc.2 ∈ pa.2.kids ∧ visitChild o pc.2 = true ∧
              pc.1 = pa.1 ++ [pa.2.name] ∧ a = mkMod pa ∧ b = mkMod pc) ∨
            (∃ pos it, pos ∈ L ∧ it ∈ pos.2.items ∧ keepItem o it = true ∧
              a = mkMod pos ∧ b = mkTy pos it)))) ∧
        (∀ pi, p? = some pi → ∃ e ∈ (buildMod o p? pref c g).edges, e.kind = .owns ∧
          e.src = pi ∧ (buildMod o p? pref c g).nodes[e.dst]? = some (mkMod (pref, c))) ∧
        (∀ pa ∈ visPos o pref c, ∀ c2 ∈ pa.2.kids, visitChild o c2 = true →
          ∃ e ∈ (buildMod o p? pref c g).edges, e.kind = .owns ∧
            SemEdgeAt (buildMod o p? pref c g).nodes e (mkMod pa)
              (mkMod (pa.1 ++ [pa.2.name], c2))) ∧
        (∀ pos ∈ visPos o pref c, ∀ it ∈ pos.2.items, keepItem o it = true →
          ∃ e ∈ (buildMod o p? pref c g).edges, e.kind = .owns ∧
            SemEdgeAt (buildMod o p? pref c g).nodes e (mkMod pos) (mkTy pos it))) →
      ∀ (pa : List Name × SemTree) (pidx : Nat) (g : Graph),
        (∀ c ∈ ts, c ∈ pa.2.kids) →
        pa ∈ L →
        g.nodes[pidx]? = some (mkMod pa) →
        (∀ q ∈ (visKidsPos o (pa.1 ++ [pa.2.name]) ts).map pathOf,
          q ∉ modulePaths g.nodes) →
        ((visKidsPos o (pa.1 ++ [pa.2.name]) ts).map pathOf).Nodup →
        (∀ pos ∈ visKidsPos o (pa.1 ++ [pa.2.name]) ts, pos ∈ L) →
        (buildKids o pidx (pa.1 ++ [pa.2.name]) ts g).nodes =
          g.nodes ++ (visKidsPos o (pa.1 ++ [pa.2.name]) ts).flatMap
            (fun pos => mkMod pos :: typeNodesOf o pos) ∧
        (∀ e ∈ g.edges, e ∈ (buildKids o pidx (pa.1 ++ [pa.2.name]) ts g).edges) ∧
        (∀ e ∈ (buildKids o pidx (pa.1 ++ [pa.2.name]) ts g).edges, e ∈ g.edges ∨
          (e.kind = .owns ∧ ∃ a b,
            SemEdgeAt (buildKids o pidx (pa.1 ++ [pa.2.name]) ts g).nodes e a b ∧
            ((∃ pa2 pc, pa2 ∈ L ∧ pc.2 ∈ pa2.2.kids ∧ visitChild o pc.2 = true ∧
              pc.1 = pa2.1 ++ [pa2.2.name] ∧ a = mkMod pa2 ∧ b = mkMod pc) ∨
            (∃ pos it, pos ∈ L ∧ it ∈ pos.2.items ∧ keepItem o it = true ∧
              a = mkMod pos ∧ b = mkTy pos it)))) ∧
        (∀ c ∈ ts, visitChild o c = true →
          ∃ e ∈ (buildKids o pidx (pa.1 ++ [pa.2.name]) ts g).edges, e.kind = .owns ∧
            SemEdgeAt (buildKids o pidx (pa.1 ++ [pa.2.name]) ts g).nodes e (mkMod pa)
              (mkMod (pa.1 ++ [pa.2.name], c))) ∧
        (∀ pos ∈ visKidsPos o (pa.1 ++ [pa.2.name]) ts, ∀ c2 ∈ pos.2.kids,
          visitChild o c2 = true →
          ∃ e ∈ (buildKids o pidx (pa.1 ++ [pa.2.name]) ts g).edges, e.kind = .owns ∧
            SemEdgeAt (buildKids o pidx (pa.1 ++ [pa.2.name]) ts g).nodes e (mkMod pos)
              (mkMod (pos.1 ++ [pos.2.name], c2))) ∧
        (∀ pos ∈ visKidsPos o (pa.1 ++ [pa.2.name]) ts, ∀ it ∈ pos.2.items,
          keepItem o it = true →
          ∃ e ∈ (buildKids o pidx (pa.1 ++ [pa.2.name]) ts g).edges, e.kind = .owns ∧
            SemEdgeAt (buildKids o pidx (pa.1 ++ [pa.2.name]) ts g).nodes e (mkMod pos)
              (mkTy pos it)) := by
  intro ts
  induction ts with
  | nil =>
    intro _ pa pidx g _ _ _ _ _ _
    rw [buildKids_nil, visKidsPos_nil]
    refine ⟨by simp, fun e he => he, fun e he => Or.inl he, ?_, ?_, ?_⟩
    · intro c hc
      cases hc
    · intro pos hpos
      cases hpos
    · intro pos hpos
      cases hpos
  | cons c rest ih =>
    intro hP pa pidx g hkids hpaL hpay hfresh hnodup hsub
    rw [buildKids_cons]
    rw [visKidsPos_cons] at hfresh hnodup hsub
    by_cases hv : visitChild o c = true
    · rw [if_pos hv]
      rw [if_pos hv] at hfresh hnodup hsub
      -- process the first child with the member hypothesis
      have hne : ((some pidx : Option Nat)).isNone = (pa.1 ++ [pa.2.name]).isEmpty := by
        rw [isEmpty_append_singleton]
        rfl
      obtain ⟨cN, cM, cS, cP, cC, cT⟩ :=
        hP c (List.mem_cons_self c rest) (some pidx) (pa.1 ++ [pa.2.name]) g hne
          (fun q hq => hfresh q (by
            rw [List.map_append]
            exact List.mem_append_left _ hq))
          (by
            rw [List.map_append, List.nodup_append] at hnodup
            exact hnodup.1)
          (fun pos hpos => hsub pos (List.mem_append_left _ hpos))
          (fun pi hpi => by
            cases hpi
            exact ⟨pa, hpay, hpaL, hkids c (List.mem_cons_self c rest), hv, rfl⟩)
      -- now the siblings, starting from the grown graph
      have hpay2 : (buildMod o (some pidx) (pa.1 ++ [pa.2.name]) c g).nodes[pidx]? =
          some (mkMod pa) := by
        rw [cN]
        exact getElem?_append_of_some hpay
      have hmp2 : modulePaths (buildMod o (some pidx) (pa.1 ++ [pa.2.name]) c g).nodes =
          modulePaths g.nodes ++ (visPos o (pa.1 ++ [pa.2.name]) c).map pathOf := by
        rw [cN, modulePaths_append, modulePaths_p1nodes]
      obtain ⟨rN, rM, rS, rP, rC, rT⟩ :=
        ih (fun c' hc' => hP c' (List.mem_cons_of_mem c hc')) pa pidx
          (buildMod o (some pidx) (pa.1 ++ [pa.2.name]) c g)
          (fun c' hc' => hkids c' (List.mem_cons_of_mem c hc')) hpaL hpay2
          (by
            intro q hq
            rw [hmp2]
            rw [List.map_append, List.nodup_append] at hnodup
            intro hmem
            rcases List.mem_append.mp hmem with h | h
            · exact hfresh q (by
                rw [List.map_append]
                exact List.mem_append_right _ hq) h
            · exact hnodup.2.2 h hq)
          (by
            rw [List.map_append, List.nodup_append] at hnodup
            exact hnodup.2.1)
          (fun pos hpos => hsub pos (List.mem_append_right _ hpos))
      -- assemble
      have hnodes : (buildKids o pidx (pa.1 ++ [pa.2.name]) rest
          (buildMod o (some pidx) (pa.1 ++ [pa.2.name]) c g)).nodes =
          g.nodes ++ ((visPos o (pa.1 ++ [pa.2.name]) c).flatMap
              (fun pos => mkMod pos :: typeNodesOf o pos) ++
            (visKidsPos o (pa.1 ++ [pa.2.name]) rest).flatMap
              (fun pos => mkMod pos :: typeNodesOf o pos)) := by
        rw [rN, cN, p1nodes, List.append_assoc]
      refine ⟨?_, ?_, ?_, ?_, ?_, ?_⟩
      · rw [hnodes, visKidsPos_cons, if_pos hv, List.flatMap_append]
      · intro e he
        exact rM e (cM e he)
      · intro e he
        rcases rS e he with he2 | ⟨hek, a, b, hsem, hshape⟩
        · rcases cS e he2 with he3 | ⟨hek, a, b, hsem, hshape⟩
          · exact Or.inl he3
          · refine Or.inr ⟨hek, a, b, ?_, hshape⟩
            rcases hsem with ⟨h1, h2⟩
            rw [rN]
            exact ⟨getElem?_append_of_some h1, getElem?_append_of_some h2⟩
        · exact Or.inr ⟨hek, a, b, hsem, hshape⟩
      · intro c2 hc2 hv2
        rcases List.mem_cons.mp hc2 with rfl | hc2
        · -- the parent edge of the just-built child
          obtain ⟨e, he, hek, hes, hed⟩ := cP pidx rfl
          refine ⟨e, rM e he, hek, ?_⟩
          constructor
          · rw [rN, hes]
            exact getElem?_append_of_some hpay2
          · rw [rN]
            exact getElem?_append_of_some hed
        · exact rP c2 hc2 hv2
      · intro pos hpos c2 hc2 hv2
        rw [visKidsPos_cons, if_pos hv] at hpos
        rcases List.mem_append.mp hpos with hpos | hpos
        · obtain ⟨e, he, hek, hsem⟩ := cC pos hpos c2 hc2 hv2
          refine ⟨e, rM e he, hek, ?_⟩
          rcases hsem with ⟨h1, h2⟩
          rw [rN]
          exact ⟨getElem?_append_of_some h1, getElem?_append_of_some h2⟩
        · exact rC pos hpos c2 hc2 hv2
      · intro pos hpos it hit hk
        rw [visKidsPos_cons, if_pos hv] at hpos
        rcases List.mem_append.mp hpos with hpos | hpos
        · obtain ⟨e, he, hek, hsem⟩ := cT pos hpos it hit hk
          refine ⟨e, rM e he, hek, ?_⟩
          rcases hsem with ⟨h1, h2⟩
          rw [rN]
          exact ⟨getElem?_append_of_some h1, getElem?_append_of_some h2⟩
        · exact rT pos hpos it hit hk
    · rw [if_neg hv]
      rw [if_neg hv] at hfresh hnodup hsub
      simp only [List.nil_append] at hfresh hnodup hsub
      obtain ⟨rN, rM, rS, rP, rC, rT⟩ :=
        ih (fun c' hc' => hP c' (List.mem_cons_of_mem c hc')) pa pidx g
          (fun c' hc' => hkids c' (List.mem_cons_of_mem c hc')) hpaL hpay hfresh hnodup hsub
      refine ⟨?_, rM, rS, ?_, ?_, ?_⟩
      · rw [rN, visKidsPos_cons, if_neg hv]
        simp
      · intro c2 hc2 hv2
        rcases List.mem_cons.mp hc2 with rfl | hc2
        · exact absurd hv2 hv
        · exact rP c2 hc2 hv2
      · intro pos hpos c2 hc2 hv2
        rw [visKidsPos_cons, if_neg hv, List.nil_append] at hpos
        exact rC pos hpos c2 hc2 hv2
      · intro pos hpos it hit hk
        rw [visKidsPos_cons, if_neg hv, List.nil_append] at hpos
        exact rT pos hpos it hit hk

theorem buildMod_exact (o : BuilderOptions) (L : List (List Name × SemTree)) :
    ∀ (t : SemTree) (p? : Option Nat) (pref : List Name) (g : Graph),
      p?.isNone = pref.isEmpty →
      (∀ q ∈ (visPos o pref t).map pathOf, q ∉ modulePaths g.nodes) →
      ((visPos o pref t).map pathOf).Nodup →
      (∀ pos ∈ visPos o pref t, pos ∈ L) →
      (∀ pi, p? = some pi → ∃ pa, g.nodes[pi]? = some (mkMod pa) ∧ pa ∈ L ∧
        t ∈ pa.2.kids ∧ visitChild o t = true ∧ pref = pa.1 ++ [pa.2.name]) →
      (buildMod o p? pref t g).nodes = g.nodes ++ p1nodes o pref t ∧
      (∀ e ∈ g.edges, e ∈ (buildMod o p? pref t g).edges) ∧
      (∀ e ∈ (buildMod o p? pref t g).edges, e ∈ g.edges ∨
        (e.kind = .owns ∧ ∃ a b, SemEdgeAt (buildMod o p? pref t g).nodes e a b ∧
          ((∃ pa pc, pa ∈ L ∧ pc.2 ∈ pa.2.kids ∧ visitChild o pc.2 = true ∧
            pc.1 = pa.1 ++ [pa.2.name] ∧ a = mkMod pa ∧ b = mkMod pc) ∨
          (∃ pos it, pos ∈ L ∧ it ∈ pos.2.items ∧ keepItem o it = true ∧
            a = mkMod pos ∧ b = mkTy pos it)))) ∧
      (∀ pi, p? = some pi → ∃ e ∈ (buildMod o p? pref t g).edges, e.kind = .owns ∧
        e.src = pi ∧ (buildMod o p? pref t g).nodes[e.dst]? = some (mkMod (pref, t))) ∧
      (∀ pa ∈ visPos o pref t, ∀ c2 ∈ pa.2.kids, visitChild o c2 = true →
        ∃ e ∈ (buildMod o p? pref t g).edges, e.kind = .owns ∧
          SemEdgeAt (buildMod o p? pref t g).nodes e (mkMod pa)
            (mkMod (pa.1 ++ [pa.2.name], c2))) ∧
      (∀ pos ∈ visPos o pref t, ∀ it ∈ pos.2.items, keepItem o it = true →
        ∃ e ∈ (buildMod o p? pref t g).edges, e.kind = .owns ∧
          SemEdgeAt (buildMod o p? pref t g).nodes e (mkMod pos) (mkTy pos it)) := by
  refine SemTree.strongInd _ ?_
  intro nm vis isT items us kids ih p? pref g hroot hfresh hnodup hsub hpar
  rw [buildMod_unfold]
  rw [visPos_unfold] at hfresh hnodup hsub
  have hselffresh : (pref ++ [nm]) ∉ modulePaths g.nodes := by
    apply hfresh
    rw [List.map_cons]
    exact List.mem_cons_self _ _
  have hfind : findModuleIdx g.nodes (pref ++ [nm]) = none :=
    findModuleIdx_eq_none_iff.mpr hselffresh
  have hpm : pushModule g (pref ++ [nm]) p?.isNone vis isT =
      (({ nodes := g.nodes ++ [mkMod (pref, SemTree.mk nm vis isT items us kids)]
          edges := g.edges } : Graph), g.nodes.length) := by
    rw [pushModule, hfind, hroot]
    rfl
  rw [hpm]
  have hmid :
      (addParentEdge p? { nodes := g.nodes ++
          [mkMod (pref, SemTree.mk nm vis isT items us kids)], edges := g.edges }
        g.nodes.length).nodes =
      g.nodes ++ [mkMod (pref, SemTree.mk nm vis isT items us kids)] :=
    addParentEdge_nodes _ _ _
  have hmidE : ∀ e, e ∈ (addParentEdge p? { nodes := g.nodes ++
      [mkMod (pref, SemTree.mk nm vis isT items us kids)], edges := g.edges }
        g.nodes.length).edges ↔
      (e ∈ g.edges ∨ ∃ pi, p? = some pi ∧
        e = ⟨pi, g.nodes.length, EdgeKind.owns⟩) := by
    intro e
    rcases p? with _ | pi
    · simp only [addParentEdge]
      constructor
      · intro h
        exact Or.inl h
      · intro h
        rcases h with h | ⟨pi, hpi, _⟩
        · exact h
        · cases hpi
    · simp only [addParentEdge, addEdge, List.mem_append, List.mem_singleton]
      constructor
      · intro h
        rcases h with h | h
        · exact Or.inl h
        · exact Or.inr ⟨pi, rfl, h⟩
      · intro h
        rcases h with h | ⟨pi2, hpi2, he⟩
        · exact Or.inl h
        · cases hpi2
          exact Or.inr he
  obtain ⟨tN, tM, tS, tC⟩ := foldl_pushType_exact o g.nodes.length (pref ++ [nm]) items
    (addParentEdge p? { nodes := g.nodes ++
        [mkMod (pref, SemTree.mk nm vis isT items us kids)], edges := g.edges }
      g.nodes.length)
  have hTYlist : items.filterMap (fun it => if keepItem o it then
      some (Node.type ((pref ++ [nm]) ++ [it.name]) it.kind it.vis) else none) =
      typeNodesOf o (pref, SemTree.mk nm vis isT items us kids) := rfl
  rw [hTYlist, hmid] at tN
  -- the graph after the type items
  have htyN : (items.foldl (pushType o g.nodes.length (pref ++ [nm]))
      (addParentEdge p? { nodes := g.nodes ++
          [mkMod (pref, SemTree.mk nm vis isT items us kids)], edges := g.edges }
        g.nodes.length)).nodes =
      g.nodes ++ (mkMod (pref, SemTree.mk nm vis isT items us kids) ::
        typeNodesOf o (pref, SemTree.mk nm vis isT items us kids)) := by
    rw [tN]
    simp [List.append_assoc]
  have hmpty : modulePaths (items.foldl (pushType o g.nodes.length (pref ++ [nm]))
      (addParentEdge p? { nodes := g.nodes ++
          [mkMod (pref, SemTree.mk nm vis isT items us kids)], edges := g.edges }
        g.nodes.length)).nodes =
      modulePaths g.nodes ++ [pref ++ [nm]] := by
    rw [htyN, modulePaths_append]
    have : modulePaths (mkMod (pref, SemTree.mk nm vis isT items us kids) ::
        typeNodesOf o (pref, SemTree.mk nm vis isT items us kids)) = [pref ++ [nm]] := by
      rw [modulePaths, List.filterMap_cons]
      have h1 : modulePath? (mkMod (pref, SemTree.mk nm vis isT items us kids)) =
          some (pref ++ [nm]) := rfl
      rw [h1]
      have h2 : (typeNodesOf o (pref, SemTree.mk nm vis isT items us kids)).filterMap
          modulePath? = [] :=
        modulePaths_eq_nil (typeNodesOf_pathless o _)
      rw [h2]
    rw [this]
  have hpayty : (items.foldl (pushType o g.nodes.length (pref ++ [nm]))
      (addParentEdge p? { nodes := g.nodes ++
          [mkMod (pref, SemTree.mk nm vis isT items us kids)], edges := g.edges }
        g.nodes.length)).nodes[g.nodes.length]? =
      some (mkMod (pref, SemTree.mk nm vis isT items us kids)) := by
    rw [htyN]
    exact getElem?_append_length _ _ _
  have hnodupk : ((visKidsPos o (pref ++ [nm]) kids).map pathOf).Nodup := by
    rw [List.map_cons, List.nodup_cons] at hnodup
    exact hnodup.2
  have hheadnot : (pref ++ [nm]) ∉ (visKidsPos o (pref ++ [nm]) kids).map pathOf := by
    rw [List.map_cons, List.nodup_cons] at hnodup
    have : pathOf (pref, SemTree.mk nm vis isT items us kids) = pref ++ [nm] := rfl
    rw [this] at hnodup
    exact hnodup.1
  obtain ⟨kN, kM, kS, kP, kC, kT⟩ := buildKids_exact o L kids
    (fun c hc => ih c hc)
    (pref, SemTree.mk nm vis isT items us kids) g.nodes.length
    (items.foldl (pushType o g.nodes.length (pref ++ [nm]))
      (addParentEdge p? { nodes := g.nodes ++
          [mkMod (pref, SemTree.mk nm vis isT items us kids)], edges := g.edges }
        g.nodes.length))
    (fun c hc => hc)
    (hsub _ (List.mem_cons_self _ _))
    hpayty
    (by
      intro q hq
      rw [hmpty]
      intro hmem
      rcases List.mem_append.mp hmem with h | h
      · exact hfresh q (by
          rw [List.map_cons]
          exact List.mem_cons_of_mem _ hq) h
      · rw [List.mem_singleton] at h
        subst h
        exact hheadnot hq)
    hnodupk
    (fun pos hpos => hsub pos (List.mem_cons_of_mem _ hpos))
  have hprojeq : ((pref, SemTree.mk nm vis isT items us kids).1 ++
      [(pref, SemTree.mk nm vis isT items us kids).2.name]) = pref ++ [nm] := rfl
  rw [hprojeq] at kN kM kS kP kC kT
  -- the assembled node list
  have hGK : (buildKids o g.nodes.length (pref ++ [nm]) kids
      (items.foldl (pushType o g.nodes.length (pref ++ [nm]))
        (addParentEdge p? { nodes := g.nodes ++
            [mkMod (pref, SemTree.mk nm vis isT items us kids)], edges := g.edges }
          g.nodes.length))).nodes =
      g.nodes ++ (mkMod (pref, SemTree.mk nm vis isT items us kids) ::
        (typeNodesOf o (pref, SemTree.mk nm vis isT items us kids) ++
          (visKidsPos o (pref ++ [nm]) kids).flatMap
            (fun pos => mkMod pos :: typeNodesOf o pos))) := by
    rw [kN, htyN]
    simp [List.append_assoc]
  have hpayGK : (buildKids o g.nodes.length (pref ++ [nm]) kids
      (items.foldl (pushType o g.nodes.length (pref ++ [nm]))
        (addParentEdge p? { nodes := g.nodes ++
            [mkMod (pref, SemTree.mk nm vis isT items us kids)], edges := g.edges }
          g.nodes.length))).nodes[g.nodes.length]? =
      some (mkMod (pref, SemTree.mk nm vis isT items us kids)) := by
    rw [hGK]
    exact getElem?_append_length _ _ _
  refine ⟨?_, ?_, ?_, ?_, ?_, ?_⟩
  · -- exact node list
    rw [hGK, p1nodes, visPos_unfold, List.flatMap_cons]
    rfl
  · -- old edges survive
    intro e he
    exact kM e (tM e ((hmidE e).mpr (Or.inl he)))
  · -- soundness of the new edges
    intro e he
    rcases kS e he with he2 | ⟨hek, a, b, hsem, hshape⟩
    · rcases tS e he2 with he3 | ⟨hek, hes, it, hit, hk, hd⟩
      · rcases (hmidE e).mp he3 with he4 | ⟨pi, hpi, rfl⟩
        · exact Or.inl he4
        · obtain ⟨pa, hpa, hpaL, hkid, hvis, hprefeq⟩ := hpar pi hpi
          refine Or.inr ⟨rfl, mkMod pa,
            mkMod (pref, SemTree.mk nm vis isT items us kids), ?_, ?_⟩
          · constructor
            · rw [hGK]
              exact getElem?_append_of_some hpa
            · exact hpayGK
          · exact Or.inl ⟨pa, (pref, SemTree.mk nm vis isT items us kids), hpaL, hkid,
              hvis, hprefeq, rfl, rfl⟩
      · -- an edge to a type item of this module
        refine Or.inr ⟨hek, mkMod (pref, SemTree.mk nm vis isT items us kids),
          Node.type ((pref ++ [nm]) ++ [it.name]) it.kind it.vis, ?_, ?_⟩
        · constructor
          · rw [hes]
            exact hpayGK
          · rw [kN]
            exact getElem?_append_of_some hd
        · exact Or.inr ⟨(pref, SemTree.mk nm vis isT items us kids), it,
            hsub _ (List.mem_cons_self _ _), hit, hk, rfl, rfl⟩
    · exact Or.inr ⟨hek, a, b, hsem, hshape⟩
  · -- the parent edge is present
    intro pi hpi
    refine ⟨⟨pi, g.nodes.length, EdgeKind.owns⟩,
      kM _ (tM _ ((hmidE _).mpr (Or.inr ⟨pi, hpi, rfl⟩))), rfl, rfl, hpayGK⟩
  · -- every visited parent-child pair has its edge
    intro pa hpa c2 hc2 hv2
    rcases List.mem_cons.mp hpa with rfl | hpa
    · exact kP c2 hc2 hv2
    · exact kC pa hpa c2 hc2 hv2
  · -- every kept type item has its edge
    intro pos hpos it hit hk
    rcases List.mem_cons.mp hpos with rfl | hpos
    · obtain ⟨e, he, hek, hes, hd⟩ := tC it hit hk
      refine ⟨e, kM e he, hek, ?_, ?_⟩
      · rw [hes]
        exact hpayGK
      · rw [kN]
        exact getElem?_append_of_some hd
    · exact kT pos hpos it hit hk

theorem orphanFor_pathless (opts : BuilderOptions) (u : UseFact) {n : Node}
    (h : orphanFor opts u = some n) : entityPath? n = none := by
  rcases u with p | ⟨label, crosses⟩
  · simp [orphanFor] at h
  · rcases crosses with _ | _
    · by_cases ho : opts.with_orphans = true
      · have h2 : some (Node.orphan label) = some n := by
          rw [← h]
          simp [orphanFor, ho]
        rw [Option.some_inj] at h2
        rw [← h2]
        rfl
      · exfalso
        simp [orphanFor, ho] at h
    · by_cases ho : (opts.with_orphans && opts.with_externs) = true
      · have h2 : some (Node.orphan label) = some n := by
          rw [← h]
          simp [orphanFor, ho]
        rw [Option.some_inj] at h2
        rw [← h2]
        rfl
      · exfalso
        simp [orphanFor, ho] at h

theorem orphanBlock_pathless (opts : BuilderOptions) (pos : List Name × SemTree) :
    ∀ n ∈ orphanBlock opts pos, entityPath? n = none := by
  intro n hn
  rw [orphanBlock] at hn
  by_cases hu : opts.with_uses = true
  · rw [if_pos hu] at hn
    rcases List.mem_filterMap.mp hn with ⟨u, _, ho⟩
    exact orphanFor_pathless opts u ho
  · rw [if_neg hu] at hn
    cases hn

theorem flatMap_orphanBlock_pathless (opts : BuilderOptions)
    (V : List (List Name × SemTree)) :
    ∀ n ∈ V.flatMap (orphanBlock opts), entityPath? n = none := by
  intro n hn
  rcases List.mem_flatMap.mp hn with ⟨pos, _, h⟩
  exact orphanBlock_pathless opts pos n h

theorem foldl_addUse_nodes (opts : BuilderOptions) (idx : Nat) :
    ∀ (us : List UseFact) (g : Graph),
      (us.foldl (addUse opts idx) g).nodes = g.nodes ++ us.filterMap (orphanFor opts) := by
  intro us
  induction us with
  | nil =>
    intro g
    simp
  | cons u rest ih =>
    intro g
    rw [List.foldl_cons, ih]
    rcases u with q | ⟨label, crosses⟩
    · have h1 : (addUse opts idx g (.resolved q)).nodes = g.nodes := by
        simp only [addUse]
        rcases h : findEntityIdx g.nodes q with _ | j <;> rfl
      rw [h1, List.filterMap_cons]
      rfl
    · rcases crosses with _ | _
      · by_cases ho : opts.with_orphans = true
        · have h1 : (addUse opts idx g (.unresolved label false)).nodes =
              g.nodes ++ [Node.orphan label] := by
            simp [addUse, ho, pushOrphan]
          have h2 : orphanFor opts (.unresolved label false) =
              some (Node.orphan label) := by
            simp [orphanFor, ho]
          rw [h1, List.filterMap_cons, h2, List.append_assoc]
          rfl
        · have h1 : (addUse opts idx g (.unresolved label false)).nodes = g.nodes := by
            simp [addUse, ho]
          have h2 : orphanFor opts (.unresolved label false) = none := by
            simp [orphanFor, ho]
          rw [h1, List.filterMap_cons, h2]
      · by_cases ho : (opts.with_orphans && opts.with_externs) = true
        · have h1 : (addUse opts idx g (.unresolved label true)).nodes =
              g.nodes ++ [Node.orphan label] := by
            simp [addUse, ho, pushOrphan]
          have h2 : orphanFor opts (.unresolved label true) =
              some (Node.orphan label) := by
            simp [orphanFor, ho]
          rw [h1, List.filterMap_cons, h2, List.append_assoc]
          rfl
        · have h1 : (addUse opts idx g (.unresolved label true)).nodes = g.nodes := by
            simp [addUse, ho]
          have h2 : orphanFor opts (.unresolved label true) = none := by
            simp [orphanFor, ho]
          rw [h1, List.filterMap_cons, h2]

theorem flatMap_const_nil {α β : Type} (l : List α) :
    l.flatMap (fun _ => ([] : List β)) = [] := by
  induction l with
  | nil => rfl
  | cons a r ih =>
    rw [List.flatMap_cons, ih]
    rfl

theorem orphanNodesOf_blocks (opts : BuilderOptions) (pref : List Name) (t : SemTree) :
    orphanNodesOf opts pref t = (visPos opts pref t).flatMap (orphanBlock opts) := by
  rw [orphanNodesOf]
  by_cases hu : opts.with_uses = true
  · rw [if_pos hu]
    have hfe : orphanBlock opts =
        fun pos => pos.2.uses.filterMap (orphanFor opts) := by
      funext pos
      simp [orphanBlock, hu]
    rw [hfe]
  · rw [if_neg hu]
    have hfe : orphanBlock opts = fun _ => ([] : List Node) := by
      funext pos
      simp [orphanBlock, hu]
    rw [hfe, flatMap_const_nil]

theorem visKidsPos_sublist (o : BuilderOptions) :
    ∀ (ts : List SemTree),
      (∀ c ∈ ts, ∀ (pref : List Name),
        List.Sublist (visPos o pref c) (visPos fullOpts pref c)) →
      ∀ (pref : List Name),
        List.Sublist (visKidsPos o pref ts) (visKidsPos fullOpts pref ts) := by
  intro ts
  induction ts with
  | nil =>
    intro _ pref
    rw [visKidsPos_nil, visKidsPos_nil]
  | cons c rest ih =>
    intro hP pref
    rw [visKidsPos_cons, visKidsPos_cons, if_pos (visitChild_fullOpts c)]
    by_cases hv : visitChild o c = true
    · rw [if_pos hv]
      exact List.Sublist.append (hP c (List.mem_cons_self _ _) pref)
        (ih (fun c2 hc2 => hP c2 (List.mem_cons_of_mem _ hc2)) pref)
    · rw [if_neg hv, List.nil_append]
      exact (ih (fun c2 hc2 => hP c2 (List.mem_cons_of_mem _ hc2)) pref).trans
        (List.sublist_append_right _ _)

theorem visPos_sublist :
    ∀ (t : SemTree) (o : BuilderOptions) (pref : List Name),
      List.Sublist (visPos o pref t) (visPos fullOpts pref t) := by
  refine SemTree.strongInd _ ?_
  intro nm vis isT items us kids ih o pref
  rw [visPos_unfold, visPos_unfold]
  exact List.Sublist.cons₂ _
    (visKidsPos_sublist o kids (fun c hc => ih c hc o) (pref ++ [nm]))

theorem map_sublist_flatMap_cons {α β : Type} (f : α → β) (g : α → List β) :
    ∀ (l : List α), List.Sublist (l.map f) (l.flatMap (fun x => f x :: g x)) := by
  intro l
  induction l with
  | nil => exact List.Sublist.refl _
  | cons a r ih =>
    rw [List.map_cons, List.flatMap_cons]
    exact List.Sublist.cons₂ _ (ih.trans (List.sublist_append_right _ _))

theorem WF_visPos_nodup (o : BuilderOptions) (t : SemTree) (h : WF t) :
    ((visPos o [] t).map pathOf).Nodup := by
  have h0 : ((visPos fullOpts [] t).flatMap
      (fun pos => pathOf pos :: pos.2.items.map (fun it => pathOf pos ++ [it.name]))).Nodup :=
    h
  have h1 : List.Sublist ((visPos fullOpts [] t).map pathOf)
      ((visPos fullOpts [] t).flatMap
        (fun pos => pathOf pos :: pos.2.items.map (fun it => pathOf pos ++ [it.name]))) :=
    map_sublist_flatMap_cons _ _ _
  have h2 : List.Sublist ((visPos o [] t).map pathOf)
      ((visPos fullOpts [] t).map pathOf) :=
    List.Sublist.map _ (visPos_sublist t o [])
  exact List.Nodup.sublist (h2.trans h1) h0

theorem usesKids_uses_exact (o : BuilderOptions) (G1 : List Node) :
    ∀ (ts : List SemTree),
      (∀ c ∈ ts, ∀ (pref : List Name) (g : Graph),
        (∃ l, g.nodes = G1 ++ l ∧ ∀ n ∈ l, entityPath? n = none) →
        (∀ pos ∈ visPos o pref c, mkMod pos ∈ G1) →
        UsesSpec o G1 (visPos o pref c) (usesMod o pref c g) g) →
      ∀ (pref : List Name) (g : Graph),
        (∃ l, g.nodes = G1 ++ l ∧ ∀ n ∈ l, entityPath? n = none) →
        (∀ pos ∈ visKidsPos o pref ts, mkMod pos ∈ G1) →
        UsesSpec o G1 (visKidsPos o pref ts) (usesKids o pref ts g) g := by
  intro ts
  induction ts with
  | nil =>
    intro _ pref g _ _
    rw [usesKids_nil, visKidsPos_nil]
    refine ⟨by simp, fun e he => he, fun e he => Or.inl he, ?_⟩
    intro pos hpos
    cases hpos
  | cons c rest ih =>
    intro hP pref g hbase hcan
    rw [usesKids_cons, visKidsPos_cons]
    by_cases hv : visitChild o c = true
    · rw [if_pos hv, if_pos hv]
      have hcanc : ∀ pos ∈ visPos o pref c, mkMod pos ∈ G1 := by
        intro pos hpos
        apply hcan
        rw [visKidsPos_cons, if_pos hv]
        exact List.mem_append_left _ hpos
      obtain ⟨n1, m1, s1, c1⟩ := hP c (List.mem_cons_self _ _) pref g hbase hcanc
      obtain ⟨l, hl, hlP⟩ := hbase
      have hbase1 : ∃ l2, (usesMod o pref c g).nodes = G1 ++ l2 ∧
          ∀ n ∈ l2, entityPath? n = none := by
        refine ⟨l ++ (visPos o pref c).flatMap (orphanBlock o), ?_, ?_⟩
        · rw [n1, hl, List.append_assoc]
        · intro n hn
          rcases List.mem_append.mp hn with hn | hn
          · exact hlP n hn
          · exact flatMap_orphanBlock_pathless o _ n hn
      have hcanr : ∀ pos ∈ visKidsPos o pref rest, mkMod pos ∈ G1 := by
        intro pos hpos
        apply hcan
        rw [visKidsPos_cons, if_pos hv]
        exact List.mem_append_right _ hpos
      obtain ⟨n2, m2, s2, c2⟩ := ih (fun c2 hc2 => hP c2 (List.mem_cons_of_mem _ hc2))
        pref (usesMod o pref c g) hbase1 hcanr
      refine ⟨?_, ?_, ?_, ?_⟩
      · rw [n2, n1, List.flatMap_append, List.append_assoc]
      · intro e he
        exact m2 e (m1 e he)
      · intro e he
        rcases s2 e he with he2 | ⟨hu, pos, hpos, hsrc, hshape⟩
        · rcases s1 e he2 with he3 | ⟨hu, pos, hpos, hsrc, hshape⟩
          · exact Or.inl he3
          · refine Or.inr ⟨hu, pos, List.mem_append_left _ hpos, ?_, ?_⟩
            · rw [n2]
              exact getElem?_append_of_some hsrc
            · rcases hshape with ⟨hk, p, b, hpu, hbG, hbp, hd⟩ |
                ⟨hk, label, hlu, ho, hd⟩ | ⟨hk, label, hlu, ho, hx, hd⟩
              · exact Or.inl ⟨hk, p, b, hpu, hbG, hbp, by
                  rw [n2]
                  exact getElem?_append_of_some hd⟩
              · exact Or.inr (Or.inl ⟨hk, label, hlu, ho, by
                  rw [n2]
                  exact getElem?_append_of_some hd⟩)
              · exact Or.inr (Or.inr ⟨hk, label, hlu, ho, hx, by
                  rw [n2]
                  exact getElem?_append_of_some hd⟩)
        · exact Or.inr ⟨hu, pos, List.mem_append_right _ hpos, hsrc, hshape⟩
      · intro pos hpos hu
        rcases List.mem_append.mp hpos with hpos | hpos
        · obtain ⟨ca, cb, cc⟩ := c1 pos hpos hu
          refine ⟨?_, ?_, ?_⟩
          · intro p j b hpu hf hj
            obtain ⟨e, he, hk, hs, hd⟩ := ca p j b hpu hf hj
            exact ⟨e, m2 e he, hk, by
              rw [n2]
              exact getElem?_append_of_some hs, by
              rw [n2]
              exact getElem?_append_of_some hd⟩
          · intro label hlu ho
            obtain ⟨e, he, hk, hs, hd⟩ := cb label hlu ho
            exact ⟨e, m2 e he, hk, by
              rw [n2]
              exact getElem?_append_of_some hs, by
              rw [n2]
              exact getElem?_append_of_some hd⟩
          · intro label hlu ho hx
            obtain ⟨e, he, hk, hs, hd⟩ := cc label hlu ho hx
            exact ⟨e, m2 e he, hk, by
              rw [n2]
              exact getElem?_append_of_some hs, by
              rw [n2]
              exact getElem?_append_of_some hd⟩
        · exact c2 pos hpos hu
    · rw [if_neg hv, if_neg hv, List.nil_append]
      exact ih (fun c2 hc2 => hP c2 (List.mem_cons_of_mem _ hc2)) pref g hbase
        (fun pos hpos => hcan pos (by
          rw [visKidsPos_cons, if_neg hv, List.nil_append]
          exact hpos))

theorem usesMod_uses_exact (o : BuilderOptions) (G1 : List Node)
    (hnd : (modulePaths G1).Nodup) :
    ∀ (t : SemTree) (pref : List Name) (g : Graph),
      (∃ l, g.nodes = G1 ++ l ∧ ∀ n ∈ l, entityPath? n = none) →
      (∀ pos ∈ visPos o pref t, mkMod pos ∈ G1) →
      UsesSpec o G1 (visPos o pref t) (usesMod o pref t g) g := by
  refine SemTree.strongInd _ ?_
  intro nm vis isT items us kids ih pref g hbase hcan
  rw [usesMod_unfold]
  obtain ⟨l, hl, hlP⟩ := hbase
  have hfind0 : findModuleIdx g.nodes (pref ++ [nm]) =
      findModuleIdx G1 (pref ++ [nm]) := by
    rw [hl]
    exact findModuleIdx_append_pathless hlP
  have hheadmem : (pref, SemTree.mk nm vis isT items us kids) ∈
      visPos o pref (SemTree.mk nm vis isT items us kids) := by
    rw [visPos_unfold]
    exact List.mem_cons_self _ _
  have hmm : mkMod (pref, SemTree.mk nm vis isT items us kids) ∈ G1 :=
    hcan _ hheadmem
  have hmp : modulePath? (mkMod (pref, SemTree.mk nm vis isT items us kids)) =
      some (pref ++ [nm]) := rfl
  obtain ⟨i, hfi, hGi⟩ := findModuleIdx_canonical hnd hmm hmp
  have hfind : findModuleIdx g.nodes (pref ++ [nm]) = some i := by
    rw [hfind0, hfi]
  rw [hfind]
  have hcan0 : ∀ pos ∈ visKidsPos o (pref ++ [nm]) kids, mkMod pos ∈ G1 := by
    intro pos hpos
    apply hcan
    rw [visPos_unfold]
    exact List.mem_cons_of_mem _ hpos
  by_cases hu : o.with_uses = true
  · have hg0 : addUses o us g (some i) = us.foldl (addUse o i) g := by
      simp [addUses, hu]
    rw [hg0]
    have hN0 : (us.foldl (addUse o i) g).nodes =
        g.nodes ++ us.filterMap (orphanFor o) := foldl_addUse_nodes o i us g
    obtain ⟨⟨lo, hlo, hloP⟩, fM, fS, fCr, fCo, fCx⟩ := foldl_addUse_exact o i us g
    have hbase0 : ∃ l2, (us.foldl (addUse o i) g).nodes = G1 ++ l2 ∧
        ∀ n ∈ l2, entityPath? n = none := by
      refine ⟨l ++ us.filterMap (orphanFor o), ?_, ?_⟩
      · rw [hN0, hl, List.append_assoc]
      · intro n hn
        rcases List.mem_append.mp hn with hn | hn
        · exact hlP n hn
        · rcases List.mem_filterMap.mp hn with ⟨u, _, hou⟩
          exact orphanFor_pathless o u hou
    obtain ⟨kn, km, ks, kc⟩ := usesKids_uses_exact o G1 kids
      (fun c hc => ih c hc) (pref ++ [nm]) (us.foldl (addUse o i) g) hbase0 hcan0
    have hFn : (usesKids o (pref ++ [nm]) kids (us.foldl (addUse o i) g)).nodes =
        g.nodes ++ (us.filterMap (orphanFor o) ++
          (visKidsPos o (pref ++ [nm]) kids).flatMap (orphanBlock o)) := by
      rw [kn, hN0, List.append_assoc]
    have hsrcpay :
        (usesKids o (pref ++ [nm]) kids (us.foldl (addUse o i) g)).nodes[i]? =
          some (mkMod (pref, SemTree.mk nm vis isT items us kids)) := by
      rw [hFn, hl, List.append_assoc]
      exact getElem?_append_of_some hGi
    have hhead : orphanBlock o (pref, SemTree.mk nm vis isT items us kids) =
        us.filterMap (orphanFor o) := by
      simp only [orphanBlock, hu, if_true]
      rfl
    refine ⟨?_, ?_, ?_, ?_⟩
    · rw [hFn, visPos_unfold, List.flatMap_cons, hhead]
    · intro e he
      exact km e (fM e he)
    · intro e he
      rcases ks e he with he2 | ⟨hu2, pos, hpos, hsrc, hshape⟩
      · rcases fS e he2 with he3 | ⟨hes, hshape⟩
        · exact Or.inl he3
        · refine Or.inr ⟨hu, (pref, SemTree.mk nm vis isT items us kids), ?_, ?_, ?_⟩
          · rw [visPos_unfold]
            exact List.mem_cons_self _ _
          · rw [hes]
            exact hsrcpay
          · rcases hshape with ⟨hek, p, b, hpu, hbmem, hbp, hd⟩ |
              ⟨hek, label, hlu, ho, hd⟩ | ⟨hek, label, hlu, ho, hx, hd⟩
            · have hbG : b ∈ G1 := by
                rw [hl] at hbmem
                rcases List.mem_append.mp hbmem with h | h
                · exact h
                · rw [hlP b h] at hbp
                  cases hbp
              refine Or.inl ⟨hek, p, b, hpu, hbG, hbp, ?_⟩
              rw [kn]
              exact getElem?_append_of_some hd
            · refine Or.inr (Or.inl ⟨hek, label, hlu, ho, ?_⟩)
              rw [kn]
              exact getElem?_append_of_some hd
            · refine Or.inr (Or.inr ⟨hek, label, hlu, ho, hx, ?_⟩)
              rw [kn]
              exact getElem?_append_of_some hd
      · refine Or.inr ⟨hu2, pos, ?_, hsrc, hshape⟩
        rw [visPos_unfold]
        exact List.mem_cons_of_mem _ hpos
    · intro pos hpos hu2
      rw [visPos_unfold] at hpos
      rcases List.mem_cons.mp hpos with rfl | hpos
      · refine ⟨?_, ?_, ?_⟩
        · intro p j b hpu hf hj
          have hf2 : findEntityIdx g.nodes p = some j := by
            rw [hl, findEntityIdx_append_pathless hlP]
            exact hf
          have hj2 : g.nodes[j]? = some b := by
            rw [hl]
            exact getElem?_append_of_some hj
          obtain ⟨e, he, hek, hes, hd⟩ := fCr p j b hpu hf2 hj2
          refine ⟨e, km e he, hek, ?_, ?_⟩
          · rw [hes]
            exact hsrcpay
          · rw [kn]
            exact getElem?_append_of_some hd
        · intro label hlu ho
          obtain ⟨e, he, hek, hes, hd⟩ := fCo label hlu ho
          refine ⟨e, km e he, hek, ?_, ?_⟩
          · rw [hes]
            exact hsrcpay
          · rw [kn]
            exact getElem?_append_of_some hd
        · intro label hlu ho hx
          obtain ⟨e, he, hek, hes, hd⟩ := fCx label hlu ho hx
          refine ⟨e, km e he, hek, ?_, ?_⟩
          · rw [hes]
            exact hsrcpay
          · rw [kn]
            exact getElem?_append_of_some hd
      · exact kc pos hpos hu2
  · have hg0 : addUses o us g (some i) = g := by
      simp [addUses, hu]
    rw [hg0]
    obtain ⟨kn, km, ks, kc⟩ := usesKids_uses_exact o G1 kids (fun c hc => ih c hc)
      (pref ++ [nm]) g ⟨l, hl, hlP⟩ hcan0
    have hhead : orphanBlock o (pref, SemTree.mk nm vis isT items us kids) =
        ([] : List Node) := by
      simp [orphanBlock, hu]
    refine ⟨?_, ?_, ?_, ?_⟩
    · rw [kn, visPos_unfold, List.flatMap_cons, hhead, List.nil_append]
    · exact km
    · intro e he
      rcases ks e he with he2 | ⟨hu2, pos, hpos, hsrc, hshape⟩
      · exact Or.inl he2
      · refine Or.inr ⟨hu2, pos, ?_, hsrc, hshape⟩
        rw [visPos_unfold]
        exact List.mem_cons_of_mem _ hpos
    · intro pos hpos hu2
      exact absurd hu2 hu

theorem build_phase1 (o : BuilderOptions) (t : SemTree)
    (hnodup : ((visPos o [] t).map pathOf).Nodup) :
    (buildMod o none [] t ⟨[], []⟩).nodes = p1nodes o [] t ∧
    (∀ e ∈ (buildMod o none [] t ⟨[], []⟩).edges,
      e.kind = .owns ∧ ∃ a b, SemEdgeAt (buildMod o none [] t ⟨[], []⟩).nodes e a b ∧
        ((∃ pa pc, pa ∈ visPos o [] t ∧ pc.2 ∈ pa.2.kids ∧ visitChild o pc.2 = true ∧
          pc.1 = pa.1 ++ [pa.2.name] ∧ a = mkMod pa ∧ b = mkMod pc) ∨
        (∃ pos it, pos ∈ visPos o [] t ∧ it ∈ pos.2.items ∧ keepItem o it = true ∧
          a = mkMod pos ∧ b = mkTy pos it))) ∧
    (∀ pa ∈ visPos o [] t, ∀ c2 ∈ pa.2.kids, visitChild o c2 = true →
      ∃ e ∈ (buildMod o none [] t ⟨[], []⟩).edges, e.kind = .owns ∧
        SemEdgeAt (buildMod o none [] t ⟨[], []⟩).nodes e (mkMod pa)
          (mkMod (pa.1 ++ [pa.2.name], c2))) ∧
    (∀ pos ∈ visPos o [] t, ∀ it ∈ pos.2.items, keepItem o it = true →
      ∃ e ∈ (buildMod o none [] t ⟨[], []⟩).edges, e.kind = .owns ∧
        SemEdgeAt (buildMod o none [] t ⟨[], []⟩).nodes e (mkMod pos) (mkTy pos it)) := by
  obtain ⟨hN, hM, hS, hP, hC, hT⟩ := buildMod_exact o (visPos o [] t) t none [] ⟨[], []⟩
    rfl
    (by
      intro q hq
      simp [modulePaths])
    hnodup
    (fun pos h => h)
    (fun pi h => Option.noConfusion h)
  refine ⟨hN.trans (List.nil_append _), ?_, hC, hT⟩
  intro e he
  exact Or.resolve_left (hS e he) (fun h => absurd h (List.not_mem_nil e))

theorem build_uses (o : BuilderOptions) (t : SemTree)
    (hnodup : ((visPos o [] t).map pathOf).Nodup) :
    UsesSpec o (p1nodes o [] t) (visPos o [] t) (build o t)
      (buildMod o none [] t ⟨[], []⟩) := by
  have hN := (build_phase1 o t hnodup).1
  have hnd : (modulePaths (p1nodes o [] t)).Nodup := by
    rw [modulePaths_p1nodes]
    exact hnodup
  have hbase : ∃ l, (buildMod o none [] t ⟨[], []⟩).nodes = p1nodes o [] t ++ l ∧
      ∀ n ∈ l, entityPath? n = none :=
    ⟨[], by rw [hN, List.append_nil], fun n hn => absurd hn (List.not_mem_nil n)⟩
  have hcan : ∀ pos ∈ visPos o [] t, mkMod pos ∈ p1nodes o [] t :=
    fun pos h => mkMod_mem_p1nodes o [] t h
  exact usesMod_uses_exact o (p1nodes o [] t) hnd t [] (buildMod o none [] t ⟨[], []⟩)
    hbase hcan

/-- C3: corrected form of the subset claim. Holding the root unit fixed
(over any well-formed fact tree, i.e. distinct entities carry distinct
qualified paths), the graph built with any of `with_types`, `with_tests`,
`with_orphans`, `with_uses`, `with_externs` disabled is a subset of the
graph built with all of them enabled: every node payload occurs in the
all-enabled graph, and every edge has a counterpart of the same kind
between the same two node payloads. The inclusion is NOT strict in
general (see the counterexample theorem): a unit with nothing to filter
builds the identical graph. -/
theorem builder_subset_of_all_enabled (o : BuilderOptions) (t : SemTree) (hWF : WF t) :
    (∀ n ∈ (build o t).nodes, n ∈ (build fullOpts t).nodes) ∧
    (∀ e ∈ (build o t).edges, ∃ a b, SemEdgeAt (build o t).nodes e a b ∧
      ∃ e2 ∈ (build fullOpts t).edges, e2.kind = e.kind ∧
        SemEdgeAt (build fullOpts t).nodes e2 a b) := by
  have hndo : ((visPos o [] t).map pathOf).Nodup := WF_visPos_nodup o t hWF
  have hndf : ((visPos fullOpts [] t).map pathOf).Nodup := WF_visPos_nodup fullOpts t hWF
  obtain ⟨oN, oS, oC, oT⟩ := build_phase1 o t hndo
  obtain ⟨fN, fS, fC, fT⟩ := build_phase1 fullOpts t hndf
  obtain ⟨uN, uM, uS, uC⟩ := build_uses o t hndo
  obtain ⟨vN, vM, vS, vC⟩ := build_uses fullOpts t hndf
  constructor
  · intro n hn
    rw [uN, oN] at hn
    rw [vN, fN]
    rcases List.mem_append.mp hn with hn | hn
    · exact List.mem_append_left _ (p1nodes_mono o [] t n hn)
    · refine List.mem_append_right _ ?_
      have h1 : n ∈ orphanNodesOf o [] t := by
        rw [orphanNodesOf_blocks]
        exact hn
      have h2 := orphanNodesOf_mono o [] t n h1
      rw [orphanNodesOf_blocks] at h2
      exact h2
  · intro e he
    rcases uS e he with he1 | ⟨hu, pos, hpos, hsrc, hshape⟩
    · -- a phase-one (ownership) edge of the restricted build
      obtain ⟨hek, a, b, hsem, hsh⟩ := oS e he1
      refine ⟨a, b, ?_, ?_⟩
      · have hsem1 : SemEdgeAt ((buildMod o none [] t ⟨[], []⟩).nodes ++
            (visPos o [] t).flatMap (orphanBlock o)) e a b := SemEdgeAt_append hsem
        rw [← uN] at hsem1
        exact hsem1
      · rcases hsh with ⟨pa, pc, hpaL, hkid, hvis, hpc1, ha, hb⟩ |
          ⟨pos, it, hposL, hit, hk, ha, hb⟩
        · obtain ⟨e2, he2, he2k, hsem2⟩ := fC pa (visPos_mono t o [] pa hpaL) pc.2 hkid
            (visitChild_fullOpts pc.2)
          refine ⟨e2, vM e2 he2, by rw [he2k, hek], ?_⟩
          have hsem3 : SemEdgeAt ((buildMod fullOpts none [] t ⟨[], []⟩).nodes ++
              (visPos fullOpts [] t).flatMap (orphanBlock fullOpts)) e2 (mkMod pa)
              (mkMod (pa.1 ++ [pa.2.name], pc.2)) := SemEdgeAt_append hsem2
          rw [← vN] at hsem3
          have hpc : (pa.1 ++ [pa.2.name], pc.2) = pc := by
            rw [← hpc1]
          rw [ha, hb, ← hpc]
          exact hsem3
        · obtain ⟨e2, he2, he2k, hsem2⟩ := fT pos (visPos_mono t o [] pos hposL) it hit
            (keepItem_fullOpts it)
          refine ⟨e2, vM e2 he2, by rw [he2k, hek], ?_⟩
          have hsem3 : SemEdgeAt ((buildMod fullOpts none [] t ⟨[], []⟩).nodes ++
              (visPos fullOpts [] t).flatMap (orphanBlock fullOpts)) e2 (mkMod pos)
              (mkTy pos it) := SemEdgeAt_append hsem2
          rw [← vN] at hsem3
          rw [ha, hb]
          exact hsem3
    · -- a phase-two (use-relation) edge of the restricted build
      have hposf : pos ∈ visPos fullOpts [] t := visPos_mono t o [] pos hpos
      rcases hshape with ⟨hek, p, b, hpu, hbG, hbp, hdst⟩ |
          ⟨hek, label, hlu, ho, hdst⟩ | ⟨hek, label, hlu, ho, hx, hdst⟩
      · -- resolved target: the unique entity with this path
        have hbf : b ∈ p1nodes fullOpts [] t := p1nodes_mono o [] t b hbG
        rcases hfe : findEntityIdx (p1nodes fullOpts [] t) p with _ | j
        · exact absurd ((findEntityIdx_eq_none_iff.mp hfe) b hbf) (by
            intro h
            exact h hbp)
        obtain ⟨b2, hb2get, hb2p⟩ := findEntityIdx_some_payload hfe
        have hb2mem : b2 ∈ p1nodes fullOpts [] t := List.mem_iff_getElem?.mpr ⟨j, hb2get⟩
        have hshb : (∃ pos2 ∈ visPos fullOpts [] t, b = mkMod pos2) ∨
            (∃ pos2 ∈ visPos fullOpts [] t, ∃ it ∈ pos2.2.items, b = mkTy pos2 it) := by
          rcases p1nodes_shape fullOpts [] t b hbf with ⟨pos2, h2, h3⟩ |
            ⟨pos2, h2, it, hit, _, h3⟩
          · exact Or.inl ⟨pos2, h2, h3⟩
          · exact Or.inr ⟨pos2, h2, it, hit, h3⟩
        have hshb2 : (∃ pos2 ∈ visPos fullOpts [] t, b2 = mkMod pos2) ∨
            (∃ pos2 ∈ visPos fullOpts [] t, ∃ it ∈ pos2.2.items, b2 = mkTy pos2 it) := by
          rcases p1nodes_shape fullOpts [] t b2 hb2mem with ⟨pos2, h2, h3⟩ |
            ⟨pos2, h2, it, hit, _, h3⟩
          · exact Or.inl ⟨pos2, h2, h3⟩
          · exact Or.inr ⟨pos2, h2, it, hit, h3⟩
        have hbb2 : b2 = b := canonical_entity_unique hWF hshb2 hshb hb2p hbp
        obtain ⟨e2, he2, he2k, hsrc2, hdst2⟩ := (vC pos hposf rfl).1 p j b2 hpu hfe hb2get
        rw [hbb2] at hdst2
        exact ⟨mkMod pos, b, ⟨hsrc, hdst⟩, e2, he2, by rw [he2k, hek], hsrc2, hdst2⟩
      · obtain ⟨e2, he2, he2k, hsrc2, hdst2⟩ := (vC pos hposf rfl).2.1 label hlu rfl
        exact ⟨mkMod pos, Node.orphan label, ⟨hsrc, hdst⟩, e2, he2,
          by rw [he2k, hek], hsrc2, hdst2⟩
      · obtain ⟨e2, he2, he2k, hsrc2, hdst2⟩ := (vC pos hposf rfl).2.2 label hlu rfl rfl
        exact ⟨mkMod pos, Node.orphan label, ⟨hsrc, hdst⟩, e2, he2,
          by rw [he2k, hek], hsrc2, hdst2⟩

/-- C3: counterexample to the literal (strict-subset) claim: for a
well-formed unit with no items, no tests, no uses and no children there
is nothing for the option flags to filter, so disabling `with_types`
produces the IDENTICAL graph, and neither the node set nor the edge set
of the restricted build is a strict subset of the all-enabled build's. -/
theorem builder_strict_subset_counterexample :
    WF (SemTree.mk ['a'] Vis.visPub false [] [] []) ∧
    (⟨none, none, false, true, true, true, true⟩ : BuilderOptions).with_types = false ∧
    build ⟨none, none, false, true, true, true, true⟩
        (SemTree.mk ['a'] Vis.visPub false [] [] []) =
      build fullOpts (SemTree.mk ['a'] Vis.visPub false [] [] []) ∧
    ¬((∃ n ∈ (build fullOpts (SemTree.mk ['a'] Vis.visPub false [] [] [])).nodes,
        n ∉ (build ⟨none, none, false, true, true, true, true⟩
          (SemTree.mk ['a'] Vis.visPub false [] [] [])).nodes) ∨
      (∃ e ∈ (build fullOpts (SemTree.mk ['a'] Vis.visPub false [] [] [])).edges,
        e ∉ (build ⟨none, none, false, true, true, true, true⟩
          (SemTree.mk ['a'] Vis.visPub false [] [] [])).edges)) := by
  decide

theorem builder_subset_of_all_enabled_witness :
    WF (SemTree.mk ['a'] Vis.visPub false [] []
        [SemTree.mk ['b'] Vis.visPub false [] [] []]) ∧
    ∀ n ∈ (build ⟨none, none, false, false, false, false, false⟩
        (SemTree.mk ['a'] Vis.visPub false [] []
          [SemTree.mk ['b'] Vis.visPub false [] [] []])).nodes,
      n ∈ (build fullOpts (SemTree.mk ['a'] Vis.visPub false [] []
        [SemTree.mk ['b'] Vis.visPub false [] [] []])).nodes :=
  ⟨by decide,
    (builder_subset_of_all_enabled ⟨none, none, false, false, false, false, false⟩
      (SemTree.mk ['a'] Vis.visPub false [] []
        [SemTree.mk ['b'] Vis.visPub false [] [] []]) (by decide)).1⟩
